import Mathlib

/-!
Verification of the wheel-index / dependency-pinning scripts.

We give a shallow embedding of the three core components:
* the artifact metadata extractor (`extract_wheel_metadata` in
  `generate_s3_index.py`),
* the index synthesizer's grouping logic and name normalization
  (`normalize_package_name`, `main` in `generate_s3_index.py`),
* the version-pinning rewriter (`extract_version_from_wheel`,
  `get_custom_wheel_versions`, `pin_dependencies_in_pyproject` in
  `pin_rocm_dependencies.py`),
* the public filename normalizer (`normalize_wheel_filename` in
  `normalize_wheel_versions.py`).

Strings are modelled as `List Char`; Python `str.split(sep)` with a
one-character separator is `splitCh`, `str.join` is `joinCh`,
`str.replace('.whl', '')` is `removeWhl`, `str.endswith` is list-suffix,
`str.startswith` is list-prefix, and `str.lower()` is `Char.toLower`
mapped over the characters (the scripts only ever handle ASCII names).
The `re` usages of the rewriter are embedded with a small backtracking
matcher (`mrun`) whose alternation and greediness order follows Python's
`re` engine, together with `re.sub`-style substitution (`subAll`).
-/

/-- Python `s.split(sep)` for a single-character separator:
`splitCh '-' "a-b"` is `["a", "b"]`, and the empty string yields `[[]]`. -/
def splitCh (sep : Char) : List Char → List (List Char)
  | [] => [[]]
  | c :: rest =>
    match splitCh sep rest with
    | [] => [[]]
    | h :: t => if c = sep then [] :: h :: t else (c :: h) :: t

/-- Python `sep.join(parts)` for a single-character separator. -/
def joinCh (sep : Char) : List (List Char) → List Char
  | [] => []
  | [x] => x
  | x :: y :: t => x ++ sep :: joinCh sep (y :: t)

/-- The four characters of the `.whl` extension. -/
def wheelExt : List Char := ['.', 'w', 'h', 'l']

/-- Python `s.replace('.whl', '')`: removes every (leftmost, non-overlapping)
occurrence of `.whl` anywhere in the string. -/
def removeWhl : List Char → List Char
  | [] => []
  | c :: rest =>
    if c = '.' ∧ ['w', 'h', 'l'] <+: rest then
      match rest with
      | _ :: _ :: _ :: rest2 => removeWhl rest2
      | _ => []
    else c :: removeWhl rest

/-- Does `.whl` occur anywhere in the string? -/
def hasWhl : List Char → Bool
  | [] => false
  | c :: rest => (decide (c = '.' ∧ ['w', 'h', 'l'] <+: rest)) || hasWhl rest

/-- Source: `generate_s3_index.py`, `extract_wheel_metadata`.
Checks the `.whl` extension, strips the last four characters, splits on
`-`, requires at least 5 segments, and returns
(distribution, version, python tag), the tag at index 2 for 5 segments
and at index 3 otherwise. -/
def extract_wheel_metadata (filename : List Char) :
    Except (List Char) (List Char × List Char × List Char) :=
  if wheelExt <:+ filename then
    let parts := splitCh '-' (filename.take (filename.length - 4))
    if parts.length < 5 then
      .error ("Invalid wheel filename format: ".toList ++ filename)
    else
      .ok (parts.headD [], (parts.drop 1).headD [],
        if parts.length = 5 then (parts.drop 2).headD []
        else (parts.drop 3).headD [])
  else .error ("Not a wheel file: ".toList ++ filename)

/-- Source: `pin_rocm_dependencies.py`, `extract_version_from_wheel`.
Removes every occurrence of `.whl` (Python `str.replace`), splits on `-`,
requires at least 5 segments and returns the second one. -/
def extract_version_from_wheel (wheel_name : List Char) :
    Except (List Char) (List Char) :=
  let parts := splitCh '-' (removeWhl wheel_name)
  if parts.length < 5 then
    .error ("Invalid wheel filename format: ".toList ++ wheel_name)
  else .ok ((parts.drop 1).headD [])

/-- Is the character one of `-`, `_`, `.` (the class of `[-_.]+`)? -/
def sepCh (c : Char) : Bool := c = '-' || c = '_' || c = '.'

/-- Replace every maximal run of `[-_.]` by a single `-`
(Python `re.sub(r"[-_.]+", "-", name)`). -/
def collapseRuns : List Char → List Char
  | [] => []
  | [c] => if sepCh c then ['-'] else [c]
  | c :: d :: rest =>
    if sepCh c && sepCh d then collapseRuns (d :: rest)
    else (if sepCh c then '-' else c) :: collapseRuns (d :: rest)

/-- Source: `generate_s3_index.py`, `normalize_package_name`:
`re.sub(r"[-_.]+", "-", name).lower()`. -/
def normalize_package_name (name : List Char) : List Char :=
  (collapseRuns name).map Char.toLower

/-- Source: `generate_s3_index.py`, `python_tag_to_requires_python`.
The returned specifier is HTML-escaped in the source (`&gt;=`), which we
keep verbatim. -/
def python_tag_to_requires_python (python_tag : List Char) : List Char :=
  if "cp".toList <+: python_tag then
    let vs := python_tag.drop 2
    if 2 ≤ vs.length then
      "&gt;=".toList ++ vs.take 1 ++ ".".toList ++ vs.drop 1
    else []
  else if "py".toList <+: python_tag then
    let vs := python_tag.drop 2
    if vs.length ≠ 0 then
      if ¬ '.' ∈ vs ∧ 1 < vs.length then
        "&gt;=".toList ++ vs.take 1 ++ ".".toList ++ vs.drop 1
      else "&gt;=".toList ++ vs ++ ".0".toList
    else []
  else []

/-- Source: `normalize_wheel_versions.py`, `normalize_wheel_filename`
(on the filename component of the path).  Keeps non-`.whl` names and
names with fewer than 3 `-`-segments unchanged; otherwise strips the
local identifier (`+` and everything after it) from the version segment. -/
def normalize_wheel_filename (filename : List Char) : List Char :=
  if wheelExt <:+ filename then
    let parts := splitCh '-' filename
    if parts.length < 3 then filename
    else
      let distribution := parts.headD []
      let version := (parts.drop 1).headD []
      let rest := joinCh '-' (parts.drop 2)
      if '+' ∈ version then
        let base_version := (splitCh '+' version).headD []
        distribution ++ '-' :: base_version ++ '-' :: rest
      else filename
  else filename

/-- Python-dict style update on an association list: replace the value at
an existing key in place, otherwise append the binding at the end. -/
def setVer : List (List Char × List Char) → List Char → List Char →
    List (List Char × List Char)
  | [], k, v => [(k, v)]
  | (k2, v2) :: rest, k, v =>
    if k2 = k then (k2, v) :: rest else (k2, v2) :: setVer rest k v

/-- Association-list lookup keyed by decidable equality. -/
def lookupV : List (List Char × List Char) → List Char → Option (List Char)
  | [], _ => none
  | (k2, v2) :: rest, k => if k2 = k then some v2 else lookupV rest k

/-- Source: `pin_rocm_dependencies.py`, the `package_mapping` dict inside
`get_custom_wheel_versions`, in insertion order. -/
def package_mapping : List (List Char × List Char) :=
  [("torch".toList, "torch".toList),
   ("triton-".toList, "triton".toList),
   ("triton_kernels".toList, "triton-kernels".toList),
   ("torchvision".toList, "torchvision".toList),
   ("amdsmi".toList, "amdsmi".toList)]

/-- Source: `pin_rocm_dependencies.py`, `get_custom_wheel_versions`.
The input is the directory listing; `glob('*.whl')` is modelled by the
suffix filter.  Each wheel is attributed to the first mapping entry whose
prefix it starts with (Python dict iteration order), then its extracted
version is recorded; extraction failures are skipped. -/
def get_custom_wheel_versions (files : List (List Char)) :
    List (List Char × List Char) :=
  (files.filter (fun f => decide (wheelExt <:+ f))).foldl
    (fun versions wheel_name =>
      match package_mapping.find? (fun pv => decide (pv.1 <+: wheel_name)) with
      | some pv =>
        match extract_version_from_wheel wheel_name with
        | .ok v => setVer versions pv.2 v
        | .error _ => versions
      | none => versions)
    []

/-- Association list of grouped wheels, keyed by normalized package name. -/
def lookupG : List (List Char × List (List Char)) → List Char →
    Option (List (List Char))
  | [], _ => none
  | (k2, fs) :: rest, k => if k2 = k then some fs else lookupG rest k

/-- `defaultdict(list)` append: extend the entry at the key if present,
otherwise create a new singleton entry at the end. -/
def insertGroup : List (List Char × List (List Char)) → List Char →
    List Char → List (List Char × List (List Char))
  | [], k, f => [(k, [f])]
  | (k2, fs) :: rest, k, f =>
    if k2 = k then (k2, fs ++ [f]) :: rest
    else (k2, fs) :: insertGroup rest k f

/-- One iteration of the grouping loop of `generate_s3_index.py`,
`main`: a wheel whose filename parses is appended to the `defaultdict`
entry of its normalized distribution name; a parse failure is skipped. -/
def groupStep (packages : List (List Char × List (List Char)))
    (wheel_path : List Char) : List (List Char × List (List Char)) :=
  match extract_wheel_metadata wheel_path with
  | .ok (pkg_name, _, _) =>
    insertGroup packages (normalize_package_name pkg_name) wheel_path
  | .error _ => packages

/-- Source: `generate_s3_index.py`, `main`, the grouping loop over all
discovered wheels. -/
def groupWheels (all_wheels : List (List Char)) :
    List (List Char × List (List Char)) :=
  all_wheels.foldl groupStep []

/-- Source: `generate_s3_index.py`, `main`, validation and output shape.
The directory-existence check and the emptiness check both abort
(`sys.exit(1)`) before any file is created; on success one per-package
index document is produced per grouped package. -/
def synthMainRun (wheels_dir_ok : Bool) (all_wheels : List (List Char)) :
    Except (List Char) (List (List Char × List (List Char))) :=
  if ¬ wheels_dir_ok then .error "ERROR: Wheels directory not found".toList
  else if all_wheels.isEmpty then .error "ERROR: No wheels found".toList
  else .ok (groupWheels all_wheels)

/-! Embedding of the `re` patterns used by `pin_dependencies_in_pyproject`.
The character classes appearing in those patterns. -/

/-- Character classes used by the rewriter's patterns: `\s`, `[\d.]`,
`["\']`, `[-_]`, and `.` (any character except a newline). -/
inductive CC
  | ws
  | digitDot
  | quoteCh
  | dashUnder
  | anyNoNl

/-- Membership test of a character class, with Python `re` semantics
restricted to ASCII input. -/
def CC.test : CC → Char → Bool
  | .ws, c => c = ' ' || c = '\t' || c = '\n' || c = '\r' || c = '\x0b' || c = '\x0c'
  | .digitDot, c => c.isDigit || c = '.'
  | .quoteCh, c => c = '"' || c = '\''
  | .dashUnder, c => c = '-' || c = '_'
  | .anyNoNl, c => c ≠ '\n'

/-- Regular expressions, as used by the rewriter: literals, classes,
sequencing, ordered alternation, greedy/lazy star, numbered capturing
groups, and the end anchor `$`. -/
inductive RE
  | eps
  | lit (c : Char)
  | cls (k : CC)
  | seq (a b : RE)
  | alt (a b : RE)
  | star (lazy : Bool) (a : RE)
  | grp (n : Nat) (a : RE)
  | eol

/-- Captured groups: group number paired with the matched characters. -/
abbrev Caps := List (Nat × List Char)

/-- Backtracking matcher in continuation-passing style, mirroring the
Python `re` engine's ordered choice: alternation tries the left branch
first, a greedy star tries the longer match first, a lazy star the
shorter, and `$` matches at the end of input or before a final newline.
The fuel only bounds the recursion; callers supply enough of it that it
never runs out on the strings considered here. -/
def mrun : Nat → RE → List Char → Caps →
    (List Char → Caps → Option (List Char × Caps)) → Option (List Char × Caps)
  | 0, _, _, _, _ => none
  | _ + 1, .eps, s, cp, k => k s cp
  | _ + 1, .lit c, s, cp, k =>
    match s with
    | [] => none
    | c2 :: rest => if c2 = c then k rest cp else none
  | _ + 1, .cls cl, s, cp, k =>
    match s with
    | [] => none
    | c2 :: rest => if cl.test c2 then k rest cp else none
  | f + 1, .seq a b, s, cp, k => mrun f a s cp (fun s2 cp2 => mrun f b s2 cp2 k)
  | f + 1, .alt a b, s, cp, k =>
    match mrun f a s cp k with
    | some r => some r
    | none => mrun f b s cp k
  | f + 1, .star lz a, s, cp, k =>
    if lz then
      match k s cp with
      | some r => some r
      | none =>
        mrun f a s cp (fun s2 cp2 =>
          if s2.length < s.length then mrun f (.star lz a) s2 cp2 k else none)
    else
      match mrun f a s cp (fun s2 cp2 =>
          if s2.length < s.length then mrun f (.star lz a) s2 cp2 k else none) with
      | some r => some r
      | none => k s cp
  | f + 1, .grp n a, s, cp, k =>
    mrun f a s cp (fun s2 cp2 =>
      k s2 ((n, s.take (s.length - s2.length)) :: cp2))
  | _ + 1, .eol, s, cp, k =>
    if s = [] ∨ s = ['\n'] then k s cp else none

/-- Fuel that is comfortably larger than any backtracking the rewriter's
patterns can perform on the given string. -/
def fuelFor (s : List Char) : Nat := (s.length + 80) * (s.length + 80)

/-- Does the string start with a character outside the class (or end
here)?  Used to state where a greedy class-star must stop. -/
def headNotIn (cl : CC) (s : List Char) : Bool :=
  match s with
  | [] => true
  | c :: _ => ! cl.test c

/-- Try to match the regex at the start of `s`; on success return the
remaining input and the captured groups. -/
def matchAt (r : RE) (s : List Char) : Option (List Char × Caps) :=
  mrun (fuelFor s) r s [] (fun s2 cp => some (s2, cp))

/-- Python `re.search`: does the regex match at some position? -/
def reFound (r : RE) : List Char → Bool
  | [] => (matchAt r []).isSome
  | c :: t => (matchAt r (c :: t)).isSome || reFound r t

/-- One item of a `re.sub` replacement template: literal text or a
back-reference `\n`. -/
inductive Rp
  | str (s : List Char)
  | ref (n : Nat)

/-- Expand a replacement template against the captured groups. -/
def expandRepl (tmpl : List Rp) (cp : Caps) : List Char :=
  tmpl.flatMap (fun item =>
    match item with
    | .str s => s
    | .ref n => ((cp.find? (fun b => b.1 = n)).map (·.2)).getD [])

/-- Python `re.sub` with explicit fuel (structural recursion so that the
kernel can evaluate it): scan left to right, replacing every
non-overlapping leftmost match; after an empty match one character is
copied through.  Every scan step either consumes the matched characters
or copies one character, so fuel `s.length + 1` is always enough. -/
def subAllF : Nat → RE → List Rp → List Char → List Char
  | 0, _, _, s => s
  | fuel + 1, r, tmpl, s =>
    match matchAt r s with
    | some (rest, cp) =>
      if rest.length < s.length then
        expandRepl tmpl cp ++ subAllF fuel r tmpl rest
      else
        expandRepl tmpl cp ++
          (match s with
           | [] => []
           | c :: t => c :: subAllF fuel r tmpl t)
    | none =>
      match s with
      | [] => []
      | c :: t => c :: subAllF fuel r tmpl t

/-- Python `re.sub` on a whole string. -/
def subAll (r : RE) (tmpl : List Rp) (s : List Char) : List Char :=
  subAllF (s.length + 1) r tmpl s

/-- Sequence a list of regexes. -/
def reSeq (l : List RE) : RE := l.foldr .seq .eps

/-- Greedy Kleene star of a class or regex. -/
def reStar (a : RE) : RE := .star false a

/-- `x+` as `x x*` (greedy). -/
def rePlus (a : RE) : RE := .seq a (reStar a)

/-- Greedy `(?:x)?`. -/
def reOpt (a : RE) : RE := .alt a .eps

/-- The `pattern_name` of the source: the package name with every `-`
replaced by the class `[-_]` (`package_name.replace('-', '[-_]')`). -/
def nameRE (pkg : List Char) : RE :=
  reSeq (pkg.map (fun c => if c = '-' then RE.cls .dashUnder else RE.lit c))

/-- Pattern 1 of `pin_dependencies_in_pyproject`:
`(\s+){pattern_name}\s*>=\s*[\d.]+\s*(?:,|$|\n)`. -/
def pat1 (pkg : List Char) : RE :=
  reSeq [.grp 1 (rePlus (.cls .ws)), nameRE pkg, reStar (.cls .ws),
    .lit '>', .lit '=', reStar (.cls .ws), rePlus (.cls .digitDot),
    reStar (.cls .ws), .alt (.lit ',') (.alt .eol (.lit '\n'))]

/-- Replacement 1: `\1{package_name} == {exact_version}\n`. -/
def rep1 (pkg ver : List Char) : List Rp :=
  [.ref 1, .str pkg, .str " == ".toList, .str ver, .str "\n".toList]

/-- Pattern 2: `(["\']){pattern_name}\s*>=\s*[\d.]+\s*(?:,.*?)?(["\'])`. -/
def pat2 (pkg : List Char) : RE :=
  reSeq [.grp 1 (.cls .quoteCh), nameRE pkg, reStar (.cls .ws),
    .lit '>', .lit '=', reStar (.cls .ws), rePlus (.cls .digitDot),
    reStar (.cls .ws),
    reOpt (.seq (.lit ',') (.star true (.cls .anyNoNl))),
    .grp 2 (.cls .quoteCh)]

/-- Replacement 2: `\1{package_name} == {exact_version}\2`. -/
def rep2 (pkg ver : List Char) : List Rp :=
  [.ref 1, .str pkg, .str " == ".toList, .str ver, .ref 2]

/-- Pattern 3 (TOML key form): `{pattern_name}\s*=\s*">=\s*[\d.]+"`. -/
def pat3 (pkg : List Char) : RE :=
  reSeq [nameRE pkg, reStar (.cls .ws), .lit '=', reStar (.cls .ws),
    .lit '"', .lit '>', .lit '=', reStar (.cls .ws),
    rePlus (.cls .digitDot), .lit '"']

/-- Replacement 3: `{package_name} = "== {exact_version}"`. -/
def rep3 (pkg ver : List Char) : List Rp :=
  [.str pkg, .str " = \"== ".toList, .str ver, .str "\"".toList]

/-- The three (pattern, replacement) pairs, in source order. -/
def patternsFor (pkg ver : List Char) : List (RE × List Rp) :=
  [(pat1 pkg, rep1 pkg ver), (pat2 pkg, rep2 pkg ver), (pat3 pkg, rep3 pkg ver)]

/-- Outcome of `pin_dependencies_in_pyproject`: the rewritten manifest
text, the content preserved at the backup path (the original file is
renamed to the backup path before the rewritten text is written to the
original path, so the backup holds the pre-rewrite text), and one
modification record per (package, pattern) that matched. -/
structure PinResult where
  newContent : List Char
  backupContent : List Char
  modifications : List (List Char × List Char)

/-- Source: `pin_rocm_dependencies.py`, `pin_dependencies_in_pyproject`.
For each recorded (package, version), each of the three patterns is
searched for and, when found, substituted everywhere (`re.sub`). -/
def pin_dependencies_in_pyproject (content : List Char)
    (versions : List (List Char × List Char)) : PinResult :=
  let final := versions.foldl
    (fun (acc : List Char × List (List Char × List Char)) pv =>
      (patternsFor pv.1 pv.2).foldl
        (fun acc2 pr =>
          if reFound pr.1 acc2.1 then
            (subAll pr.1 pr.2 acc2.1, acc2.2 ++ [(pv.1, pv.2)])
          else acc2)
        acc)
    (content, [])
  { newContent := final.1, backupContent := content, modifications := final.2 }

/-- Source: `pin_rocm_dependencies.py`, `main`.  A missing install
directory aborts inside `get_custom_wheel_versions`; an empty scan result
aborts (`sys.exit(1)`) before `pin_dependencies_in_pyproject` runs, hence
before the backup is created or the manifest modified. -/
def rewriterMainRun (install_dir_ok : Bool) (files : List (List Char))
    (manifest : List Char) : Except (List Char) PinResult :=
  if ¬ install_dir_ok then .error "ERROR: Install directory not found".toList
  else
    let versions := get_custom_wheel_versions files
    if versions.isEmpty then .error "ERROR: No custom wheels found".toList
    else .ok (pin_dependencies_in_pyproject manifest versions)

/-- Formalization of the claimed tag shape `cp<major><minor>` (e.g.
`cp312`): `cp` followed by at least two digits. -/
def claimedCpTag (t : List Char) : Bool :=
  decide ("cp".toList <+: t) && 2 ≤ (t.drop 2).length && (t.drop 2).all Char.isDigit

/-- Formalization of the claimed tag shape `py<major><minor>` (e.g.
`py39`): `py` followed by at least two digits. -/
def claimedPyLongTag (t : List Char) : Bool :=
  decide ("py".toList <+: t) && 2 ≤ (t.drop 2).length && (t.drop 2).all Char.isDigit

/-- Formalization of the claimed tag shape `py<single digit>` (e.g.
`py3`). -/
def claimedPySingleTag (t : List Char) : Bool :=
  decide ("py".toList <+: t) && (t.drop 2).length = 1 && (t.drop 2).all Char.isDigit

/-- C1: the claim says a wheel of a longer package whose name has a watched
shorter name as a prefix is never recorded under the shorter name.  The
scan in `get_custom_wheel_versions` uses a bare `startswith` against the
mapping in dict order, in which `torch` precedes `torchvision`, so a
`torchvision` wheel is recorded under `torch` (and the `torchvision`
mapping entry can never fire).  This theorem evaluates the scan at the
failing input: the version `0.20.0` of the torchvision wheel lands under
the key `torch`, and nothing lands under `torchvision`. -/
theorem c1_torchvision_version_recorded_under_torch :
    get_custom_wheel_versions
        ["torchvision-0.20.0-cp312-cp312-linux_x86_64.whl".toList] =
      [("torch".toList, "0.20.0".toList)] ∧
    lookupV (get_custom_wheel_versions
        ["torchvision-0.20.0-cp312-cp312-linux_x86_64.whl".toList])
        "torchvision".toList = none := by
  decide

/-- C5: with the manifest containing the quoted loose constraint
`"demo >= 1.0.0"` and the watched package `demo` discovered at version
`1.2.0+gitdead`, the rewrite produces `"demo == 1.2.0+gitdead"` — the
local identifier after `+` is preserved — and the backup content equals
the pre-rewrite manifest text. -/
theorem c5_demo_pin_preserves_local_identifier :
    (pin_dependencies_in_pyproject
        "[project]\ndependencies = [\n    \"demo >= 1.0.0\",\n]\n".toList
        [("demo".toList, "1.2.0+gitdead".toList)]).newContent =
      "[project]\ndependencies = [\n    \"demo == 1.2.0+gitdead\",\n]\n".toList ∧
    (pin_dependencies_in_pyproject
        "[project]\ndependencies = [\n    \"demo >= 1.0.0\",\n]\n".toList
        [("demo".toList, "1.2.0+gitdead".toList)]).backupContent =
      "[project]\ndependencies = [\n    \"demo >= 1.0.0\",\n]\n".toList := by
  constructor
  · decide
  · rfl

/-- C9: a missing wheels directory or an empty wheel list makes the
synthesizer run return an error (it aborts before any output is
produced, which the `Except` shape of `synthMainRun` encodes), and a scan
yielding zero version records makes the rewriter run return an error (it
aborts before the backup is created or the manifest modified). -/
theorem c9_empty_inputs_are_fatal (dir_ok : Bool)
    (all_wheels files : List (List Char)) (manifest : List Char) :
    (dir_ok = false ∨ all_wheels = [] →
      ∃ e, synthMainRun dir_ok all_wheels = .error e) ∧
    (get_custom_wheel_versions files = [] →
      ∀ d, ∃ e, rewriterMainRun d files manifest = .error e) := by
  constructor
  · intro h
    rcases h with h | h
    · subst h
      have he : synthMainRun false all_wheels =
          .error "ERROR: Wheels directory not found".toList := by
        simp [synthMainRun]
      exact ⟨_, he⟩
    · subst h
      cases dir_ok
      · have he : synthMainRun false ([] : List (List Char)) =
            .error "ERROR: Wheels directory not found".toList := by
          simp [synthMainRun]
        exact ⟨_, he⟩
      · have he : synthMainRun true ([] : List (List Char)) =
            .error "ERROR: No wheels found".toList := by
          simp [synthMainRun]
        exact ⟨_, he⟩
  · intro hv d
    cases d
    · have he : rewriterMainRun false files manifest =
          .error "ERROR: Install directory not found".toList := by
        simp [rewriterMainRun]
      exact ⟨_, he⟩
    · have he : rewriterMainRun true files manifest =
          .error "ERROR: No custom wheels found".toList := by
        simp [rewriterMainRun, hv]
      exact ⟨_, he⟩

/-- Witness for `c9_empty_inputs_are_fatal` at concrete inputs: the empty
wheel list and the empty file list. -/
theorem c9_empty_inputs_are_fatal_witness :
    (∃ e, synthMainRun true [] = .error e) ∧
    (∃ e, rewriterMainRun true [] [] = .error e) :=
  ⟨(c9_empty_inputs_are_fatal true [] [] []).1 (Or.inr rfl),
   (c9_empty_inputs_are_fatal true [] [] []).2 rfl true⟩

/-- C4 counterexample: the tag `py2.py3` (which appears in the source's
own docstring) matches none of the three claimed tag shapes, yet
`python_tag_to_requires_python` returns the non-empty constraint
`&gt;=2.py3.0` rather than no constraint, refuting the claim's final
clause.  (The source's docstring even promises `>=2.0` here, which the
code does not produce either.) -/
theorem c4_py2py3_yields_constraint_despite_matching_no_pattern :
    claimedCpTag "py2.py3".toList = false ∧
    claimedPyLongTag "py2.py3".toList = false ∧
    claimedPySingleTag "py2.py3".toList = false ∧
    python_tag_to_requires_python "py2.py3".toList = "&gt;=2.py3.0".toList := by
  decide

/-- C4 amended: the branching is structural on the characters, not on
digit-hood.  A tag starting with `cp` whose remainder has at least two
characters yields `first.rest`; a tag starting with `py` (and not `cp`)
with a non-empty remainder yields `first.rest` when the remainder has no
dot and more than one character, else `remainder.0`; `cp`/`py` tags with
too-short remainders, and tags starting with neither, yield no
constraint.  On tags of the claimed shapes this agrees with the claim
(with the source's HTML-escaped `&gt;=` spelling). -/
theorem c4_tag_branching_is_structural (t : List Char) :
    ("cp".toList <+: t → 2 ≤ (t.drop 2).length →
      python_tag_to_requires_python t =
        "&gt;=".toList ++ (t.drop 2).take 1 ++ ".".toList ++ (t.drop 2).drop 1) ∧
    ("cp".toList <+: t → (t.drop 2).length < 2 →
      python_tag_to_requires_python t = []) ∧
    (¬ ("cp".toList <+: t) → "py".toList <+: t → '.' ∉ t.drop 2 →
      1 < (t.drop 2).length →
      python_tag_to_requires_python t =
        "&gt;=".toList ++ (t.drop 2).take 1 ++ ".".toList ++ (t.drop 2).drop 1) ∧
    (¬ ("cp".toList <+: t) → "py".toList <+: t → t.drop 2 ≠ [] →
      ('.' ∈ t.drop 2 ∨ (t.drop 2).length ≤ 1) →
      python_tag_to_requires_python t =
        "&gt;=".toList ++ t.drop 2 ++ ".0".toList) ∧
    (¬ ("cp".toList <+: t) → "py".toList <+: t → t.drop 2 = [] →
      python_tag_to_requires_python t = []) ∧
    (¬ ("cp".toList <+: t) → ¬ ("py".toList <+: t) →
      python_tag_to_requires_python t = []) := by
  refine ⟨?_, ?_, ?_, ?_, ?_, ?_⟩
  · intro hcp hlen
    have hcp2 : ['c', 'p'] <+: t := hcp
    have hlen2 : 2 ≤ t.length - 2 := by simpa using hlen
    simp [python_tag_to_requires_python, hcp2, hlen2]
  · intro hcp hlen
    have hcp2 : ['c', 'p'] <+: t := hcp
    have hlen2 : ¬ 2 ≤ t.length - 2 := by
      have h2 := hlen
      simp at h2
      omega
    simp [python_tag_to_requires_python, hcp2, hlen2]
  · intro hcp hpy hdot hlen
    have hcp2 : ¬ ['c', 'p'] <+: t := hcp
    have hpy2 : ['p', 'y'] <+: t := hpy
    have hlen2 : 1 < t.length - 2 := by simpa using hlen
    have hne0 : ¬ t.length - 2 = 0 := by omega
    simp [python_tag_to_requires_python, hcp2, hpy2, hdot, hlen2, hne0]
  · intro hcp hpy hne hor
    have hcp2 : ¬ ['c', 'p'] <+: t := hcp
    have hpy2 : ['p', 'y'] <+: t := hpy
    have hne0 : ¬ t.length - 2 = 0 := by
      have h3 : 2 < t.length := by simpa using hne
      omega
    have hcond : ¬ ('.' ∉ List.drop 2 t ∧ 1 < t.length - 2) := by
      rcases hor with h | h
      · exact fun hc => hc.1 h
      · have h2 : t.length - 2 ≤ 1 := by simpa using h
        exact fun hc => absurd hc.2 (by omega)
    simp [python_tag_to_requires_python, hcp2, hpy2, hne0, hcond]
  · intro hcp hpy hnil
    have hcp2 : ¬ ['c', 'p'] <+: t := hcp
    have hpy2 : ['p', 'y'] <+: t := hpy
    have hne0 : t.length - 2 = 0 := by
      have h3 : t.length ≤ 2 := by simpa using hnil
      omega
    simp [python_tag_to_requires_python, hcp2, hpy2, hne0]
  · intro hcp hpy
    have hcp2 : ¬ ['c', 'p'] <+: t := hcp
    have hpy2 : ¬ ['p', 'y'] <+: t := hpy
    simp [python_tag_to_requires_python, hcp2, hpy2]

/-- C3: the metadata extractor fails exactly when the filename does not
end in `.whl` or the extension-stripped name splits on `-` into fewer
than 5 segments; on success it returns segment 0 as the distribution
name, segment 1 as the version, and the compatibility tag from segment
index 2 when there are exactly 5 segments and from index 3 when there
are 6. -/
theorem c3_extract_wheel_metadata_contract (f : List Char) :
    ((∃ e, extract_wheel_metadata f = .error e) ↔
      ¬ (wheelExt <:+ f) ∨ (splitCh '-' (f.take (f.length - 4))).length < 5) ∧
    (∀ n v t, extract_wheel_metadata f = .ok (n, v, t) →
      n = (splitCh '-' (f.take (f.length - 4))).headD [] ∧
      v = ((splitCh '-' (f.take (f.length - 4))).drop 1).headD [] ∧
      ((splitCh '-' (f.take (f.length - 4))).length = 5 →
        t = ((splitCh '-' (f.take (f.length - 4))).drop 2).headD []) ∧
      ((splitCh '-' (f.take (f.length - 4))).length = 6 →
        t = ((splitCh '-' (f.take (f.length - 4))).drop 3).headD [])) := by
  by_cases hs : wheelExt <:+ f
  · by_cases hl : (splitCh '-' (f.take (f.length - 4))).length < 5
    · constructor
      · constructor
        · intro _
          exact Or.inr hl
        · intro _
          refine ⟨"Invalid wheel filename format: ".toList ++ f, ?_⟩
          simp [extract_wheel_metadata, hs, hl]
      · intro n v t h
        exfalso
        simp [extract_wheel_metadata, hs, hl] at h
    · constructor
      · constructor
        · rintro ⟨e, he⟩
          exfalso
          simp [extract_wheel_metadata, hs, hl] at he
        · intro hor
          exfalso
          rcases hor with h | h
          · exact h hs
          · exact hl h
      · intro n v t h
        simp [extract_wheel_metadata, hs, hl] at h
        obtain ⟨h1, h2, h3⟩ := h
        refine ⟨?_, ?_, ?_, ?_⟩
        · simp only [List.headD_eq_head?_getD]
          exact h1.symm
        · simp only [List.headD_eq_head?_getD, List.head?_drop]
          exact h2.symm
        · intro h5
          rw [← h3, if_pos h5]
          simp only [List.headD_eq_head?_getD, List.head?_drop]
        · intro h6
          rw [← h3, if_neg (by rw [h6]; omega)]
          simp only [List.headD_eq_head?_getD, List.head?_drop]
  · constructor
    · constructor
      · intro _
        exact Or.inl hs
      · intro _
        refine ⟨"Not a wheel file: ".toList ++ f, ?_⟩
        simp [extract_wheel_metadata, hs]
    · intro n v t h
      exfalso
      simp [extract_wheel_metadata, hs] at h

/-- Witness for `c3_extract_wheel_metadata_contract` at a well-formed
filename with 5 segments. -/
theorem c3_extract_wheel_metadata_contract_witness :
    extract_wheel_metadata
        "demo-1.2.0+gitdead-cp312-cp312-linux_x86_64.whl".toList =
      .ok ("demo".toList, "1.2.0+gitdead".toList, "cp312".toList) ∧
    "cp312".toList =
      ((splitCh '-'
        (("demo-1.2.0+gitdead-cp312-cp312-linux_x86_64.whl".toList).take
          (("demo-1.2.0+gitdead-cp312-cp312-linux_x86_64.whl".toList).length - 4))).drop
        2).headD [] := by
  constructor
  · rfl
  · exact ((c3_extract_wheel_metadata_contract
      "demo-1.2.0+gitdead-cp312-cp312-linux_x86_64.whl".toList).2
      "demo".toList "1.2.0+gitdead".toList "cp312".toList rfl).2.2.1
      (by decide)

/-- Value of `Char.toLower` on the codepoint level: basic latin capitals
are shifted by 32, everything else is unchanged. -/
theorem char_toLower_toNat (c : Char) :
    (Char.toLower c).toNat =
      if c.toNat ≥ 65 ∧ c.toNat ≤ 90 then c.toNat + 32 else c.toNat := by
  unfold Char.toLower
  by_cases h : c.toNat ≥ 65 ∧ c.toNat ≤ 90
  · rw [if_pos h, if_pos h]
    have hv : (c.toNat + 32).isValidChar := Or.inl (by omega)
    rw [Char.ofNat, dif_pos hv]
    rfl
  · rw [if_neg h, if_neg h]

/-- Characters outside the capital-latin range are `toLower` fixpoints. -/
theorem char_toLower_eq_self (c : Char)
    (h : ¬ (c.toNat ≥ 65 ∧ c.toNat ≤ 90)) : Char.toLower c = c := by
  unfold Char.toLower
  rw [if_neg h]

/-- Characters with different codepoints are different. -/
theorem char_ne_of_toNat_ne {a b : Char} (h : a.toNat ≠ b.toNat) : a ≠ b :=
  fun he => h (he ▸ rfl)

/-- `Char.toLower` is idempotent. -/
theorem char_toLower_idem (c : Char) :
    (Char.toLower c).toLower = Char.toLower c := by
  by_cases h : c.toNat ≥ 65 ∧ c.toNat ≤ 90
  · apply char_toLower_eq_self
    rw [char_toLower_toNat c, if_pos h]
    omega
  · apply char_toLower_eq_self
    rw [char_toLower_toNat c, if_neg h]
    exact h

/-- Lowercasing neither creates nor destroys separator characters. -/
theorem sepCh_toLower (c : Char) : sepCh (Char.toLower c) = sepCh c := by
  by_cases h : c.toNat ≥ 65 ∧ c.toNat ≤ 90
  · have hn : (Char.toLower c).toNat = c.toNat + 32 := by
      rw [char_toLower_toNat c, if_pos h]
    have d1 : Char.toNat '-' = 45 := rfl
    have d2 : Char.toNat '_' = 95 := rfl
    have d3 : Char.toNat '.' = 46 := rfl
    have lhs : sepCh (Char.toLower c) = false := by
      have h1 : Char.toLower c ≠ '-' := char_ne_of_toNat_ne (by omega)
      have h2 : Char.toLower c ≠ '_' := char_ne_of_toNat_ne (by omega)
      have h3 : Char.toLower c ≠ '.' := char_ne_of_toNat_ne (by omega)
      simp [sepCh, h1, h2, h3]
    have rhs : sepCh c = false := by
      have h1 : c ≠ '-' := char_ne_of_toNat_ne (by omega)
      have h2 : c ≠ '_' := char_ne_of_toNat_ne (by omega)
      have h3 : c ≠ '.' := char_ne_of_toNat_ne (by omega)
      simp [sepCh, h1, h2, h3]
    rw [lhs, rhs]
  · rw [char_toLower_eq_self c h]

/-- Run collapsing commutes with lowercasing, because lowercasing
preserves separator-hood. -/
theorem collapseRuns_map_toLower (l : List Char) :
    collapseRuns (l.map Char.toLower) = (collapseRuns l).map Char.toLower := by
  have hdash : Char.toLower '-' = '-' := rfl
  induction l with
  | nil => rfl
  | cons c tail ih =>
    cases tail with
    | nil =>
      simp only [List.map_cons, List.map_nil, collapseRuns, sepCh_toLower]
      by_cases h : sepCh c
      · rw [if_pos h, if_pos h]
        simp [hdash]
      · rw [if_neg h, if_neg h]
        rfl
    | cons d rest =>
      simp only [List.map_cons, collapseRuns, sepCh_toLower]
      by_cases h1 : sepCh c
      · by_cases h2 : sepCh d
        · simpa [h1, h2] using ih
        · simp [h1, h2, hdash]
          simpa [h1, h2] using ih
      · simpa [h1] using ih

/-- Every separator character surviving run collapsing is a dash. -/
theorem collapseRuns_sep_dash (l : List Char) :
    ∀ c ∈ collapseRuns l, sepCh c = true → c = '-' := by
  induction l with
  | nil => simp [collapseRuns]
  | cons c tail ih =>
    cases tail with
    | nil =>
      by_cases h : sepCh c
      · simp [collapseRuns, h]
      · simp [collapseRuns, h]
    | cons d rest =>
      by_cases h1 : sepCh c
      · by_cases h2 : sepCh d
        · simpa [collapseRuns, h1, h2] using ih
        · intro x hx hsep
          rw [show collapseRuns (c :: d :: rest) = '-' :: collapseRuns (d :: rest) by
            simp [collapseRuns, h1, h2]] at hx
          rcases List.mem_cons.mp hx with h | h
          · exact h
          · exact ih x h hsep
      · intro x hx hsep
        rw [show collapseRuns (c :: d :: rest) = c :: collapseRuns (d :: rest) by
          simp [collapseRuns, h1]] at hx
        rcases List.mem_cons.mp hx with h | h
        · subst h
          exact absurd hsep h1
        · exact ih x h hsep

/-- A non-separator head survives run collapsing in place. -/
theorem collapseRuns_head_not_sep (d : Char) (rest : List Char)
    (h : sepCh d = false) :
    (collapseRuns (d :: rest)).head? = some d := by
  cases rest with
  | nil => simp [collapseRuns, h]
  | cons e rest2 => simp [collapseRuns, h]

/-- After run collapsing, no two adjacent characters are both
separators. -/
theorem collapseRuns_chain (l : List Char) :
    List.Chain' (fun a b => sepCh a = false ∨ sepCh b = false)
      (collapseRuns l) := by
  induction l with
  | nil => simp [collapseRuns]
  | cons c tail ih =>
    cases tail with
    | nil =>
      by_cases h : sepCh c <;> simp [collapseRuns, h]
    | cons d rest =>
      by_cases h1 : sepCh c
      · by_cases h2 : sepCh d
        · simpa [collapseRuns, h1, h2] using ih
        · rw [show collapseRuns (c :: d :: rest) = '-' :: collapseRuns (d :: rest) by
            simp [collapseRuns, h1, h2]]
          rw [List.chain'_cons']
          refine ⟨?_, ih⟩
          intro b hb
          rw [collapseRuns_head_not_sep d rest (by simpa using h2)] at hb
          simp at hb
          subst hb
          exact Or.inr (by simpa using h2)
      · rw [show collapseRuns (c :: d :: rest) = c :: collapseRuns (d :: rest) by
          simp [collapseRuns, h1]]
        rw [List.chain'_cons']
        exact ⟨fun b _ => Or.inl (by simpa using h1), ih⟩

/-- Lists in collapsed normal form (separators are dashes, no two
adjacent separators) are fixpoints of run collapsing. -/
theorem collapseRuns_fixpoint (l : List Char)
    (hsep : ∀ c ∈ l, sepCh c = true → c = '-')
    (hch : List.Chain' (fun a b => sepCh a = false ∨ sepCh b = false) l) :
    collapseRuns l = l := by
  induction l with
  | nil => rfl
  | cons c tail ih =>
    cases tail with
    | nil =>
      by_cases h : sepCh c
      · have hc : c = '-' := hsep c (List.mem_singleton_self c) h
        subst hc
        decide
      · simp [collapseRuns, h]
    | cons d rest =>
      have hrel : sepCh c = false ∨ sepCh d = false :=
        (List.chain'_cons.mp hch).1
      have hnot : ¬ (sepCh c && sepCh d) = true := by
        rcases hrel with h | h <;> simp [h]
      have htail : collapseRuns (d :: rest) = d :: rest :=
        ih (fun x hx => hsep x (List.mem_cons_of_mem c hx))
          (List.chain'_cons.mp hch).2
      by_cases h1 : sepCh c
      · have hc : c = '-' := hsep c (List.mem_cons_self c (d :: rest)) h1
        rw [show collapseRuns (c :: d :: rest) =
            (if sepCh c then '-' else c) :: collapseRuns (d :: rest) by
          simp [collapseRuns, hnot]]
        rw [if_pos h1, htail, hc]
      · rw [show collapseRuns (c :: d :: rest) =
            (if sepCh c then '-' else c) :: collapseRuns (d :: rest) by
          simp [collapseRuns, hnot]]
        rw [if_neg h1, htail]

/-- Run collapsing is idempotent. -/
theorem collapseRuns_idem (l : List Char) :
    collapseRuns (collapseRuns l) = collapseRuns l :=
  collapseRuns_fixpoint (collapseRuns l) (collapseRuns_sep_dash l)
    (collapseRuns_chain l)

/-- C8: package-name normalization is idempotent, its output is
lowercase with every separator a single dash (no two adjacent
separators), and it identifies case and separator variants, e.g.
`Foo_Bar` and `foo-bar`. -/
theorem c8_normalize_package_name_idempotent_and_canonical :
    (∀ x : List Char,
      normalize_package_name (normalize_package_name x) =
        normalize_package_name x ∧
      (∀ c ∈ normalize_package_name x, Char.toLower c = c) ∧
      (∀ c ∈ normalize_package_name x, sepCh c = true → c = '-') ∧
      List.Chain' (fun a b => sepCh a = false ∨ sepCh b = false)
        (normalize_package_name x)) ∧
    normalize_package_name "Foo_Bar".toList =
      normalize_package_name "foo-bar".toList := by
  constructor
  · intro x
    refine ⟨?_, ?_, ?_, ?_⟩
    · unfold normalize_package_name
      rw [collapseRuns_map_toLower, collapseRuns_idem, List.map_map]
      simp [Function.comp, char_toLower_idem]
    · intro c hc
      unfold normalize_package_name at hc
      obtain ⟨c2, _, rfl⟩ := List.mem_map.mp hc
      exact char_toLower_idem c2
    · intro c hc hsep
      unfold normalize_package_name at hc
      obtain ⟨c2, hc2, rfl⟩ := List.mem_map.mp hc
      have hs2 : sepCh c2 = true := by
        rw [← sepCh_toLower c2]
        exact hsep
      rw [collapseRuns_sep_dash x c2 hc2 hs2]
      rfl
    · unfold normalize_package_name
      rw [List.chain'_map]
      have := collapseRuns_chain x
      apply List.Chain'.imp ?_ this
      intro a b h
      rcases h with h | h
      · exact Or.inl (by rw [sepCh_toLower]; exact h)
      · exact Or.inr (by rw [sepCh_toLower]; exact h)
  · decide

/-- Witness for `c8_normalize_package_name_idempotent_and_canonical`,
instantiating the quantified part at `Foo_Bar` and discharging a
membership hypothesis at the character `f`. -/
theorem c8_normalize_package_name_witness :
    normalize_package_name (normalize_package_name "Foo_Bar".toList) =
      normalize_package_name "Foo_Bar".toList ∧
    Char.toLower 'f' = 'f' :=
  ⟨(c8_normalize_package_name_idempotent_and_canonical.1 "Foo_Bar".toList).1,
   (c8_normalize_package_name_idempotent_and_canonical.1 "Foo_Bar".toList).2.1
     'f' (by decide)⟩

/-- Splitting never yields the empty list of pieces. -/
theorem splitCh_ne_nil (sep : Char) (l : List Char) : splitCh sep l ≠ [] := by
  induction l with
  | nil => simp [splitCh]
  | cons c rest ih =>
    simp only [splitCh]
    cases h : splitCh sep rest with
    | nil => simp
    | cons h t =>
      by_cases hc : c = sep <;> simp [hc]

/-- Splitting a separator-free list yields that list as the only piece. -/
theorem splitCh_no_sep (sep : Char) (l : List Char) (h : sep ∉ l) :
    splitCh sep l = [l] := by
  induction l with
  | nil => rfl
  | cons c rest ih =>
    have hc : c ≠ sep := fun he => h (he ▸ List.mem_cons_self c rest)
    have hr : sep ∉ rest := fun hm => h (List.mem_cons_of_mem c hm)
    simp only [splitCh, ih hr]
    simp [hc]

/-- Splitting after a separator-free block peels off that block. -/
theorem splitCh_append_sep (sep : Char) (a b : List Char) (h : sep ∉ a) :
    splitCh sep (a ++ sep :: b) = a :: splitCh sep b := by
  induction a with
  | nil =>
    simp only [List.nil_append, splitCh]
    cases hb : splitCh sep b with
    | nil => exact absurd hb (splitCh_ne_nil sep b)
    | cons x t => simp
  | cons c a2 ih =>
    have hc : c ≠ sep := fun he => h (he ▸ List.mem_cons_self c a2)
    have ha : sep ∉ a2 := fun hm => h (List.mem_cons_of_mem c hm)
    simp only [List.cons_append, splitCh, List.append_eq]
    rw [ih ha]
    simp [hc]

/-- Joining undoes splitting. -/
theorem joinCh_splitCh (sep : Char) (l : List Char) :
    joinCh sep (splitCh sep l) = l := by
  induction l with
  | nil => rfl
  | cons c rest ih =>
    simp only [splitCh]
    cases hr : splitCh sep rest with
    | nil => exact absurd hr (splitCh_ne_nil sep rest)
    | cons h t =>
      rw [hr] at ih
      by_cases hc : c = sep
      · subst hc
        simp only [if_pos rfl, joinCh]
        rw [ih]
        rfl
      · simp only [if_neg hc]
        cases t with
        | nil =>
          simp only [joinCh] at ih ⊢
          rw [ih]
        | cons y t2 =>
          simp only [joinCh] at ih ⊢
          rw [List.cons_append, ih]

/-- Pieces of a split are separator-free and draw their characters from
the input. -/
theorem mem_splitCh (sep : Char) (l : List Char) :
    ∀ p ∈ splitCh sep l, sep ∉ p ∧ ∀ c ∈ p, c ∈ l := by
  induction l with
  | nil =>
    intro p hp
    simp [splitCh] at hp
    simp [hp]
  | cons c rest ih =>
    intro p hp
    cases hr : splitCh sep rest with
    | nil => exact absurd hr (splitCh_ne_nil sep rest)
    | cons h t =>
      have hsplit : splitCh sep (c :: rest) =
          if c = sep then [] :: h :: t else (c :: h) :: t := by
        simp only [splitCh, hr]
      rw [hsplit] at hp
      have ihh := ih
      rw [hr] at ihh
      by_cases hc : c = sep
      · rw [if_pos hc] at hp
        rcases List.mem_cons.mp hp with h1 | h1
        · subst h1
          exact ⟨List.not_mem_nil sep, fun x hx => absurd hx (List.not_mem_nil x)⟩
        · obtain ⟨hcs, hsub⟩ := ihh p h1
          exact ⟨hcs, fun x hx => List.mem_cons_of_mem c (hsub x hx)⟩
      · rw [if_neg hc] at hp
        rcases List.mem_cons.mp hp with h1 | h1
        · subst h1
          obtain ⟨hcs, hsub⟩ := ihh h (List.mem_cons_self h t)
          constructor
          · intro hm
            rcases List.mem_cons.mp hm with h2 | h2
            · exact hc h2.symm
            · exact hcs h2
          · intro x hx
            rcases List.mem_cons.mp hx with h2 | h2
            · exact h2 ▸ List.mem_cons_self c rest
            · exact List.mem_cons_of_mem c (hsub x h2)
        · obtain ⟨hcs, hsub⟩ := ihh p (List.mem_cons_of_mem h h1)
          exact ⟨hcs, fun x hx => List.mem_cons_of_mem c (hsub x hx)⟩

/-- Splitting undoes joining on separator-free, non-empty piece lists. -/
theorem splitCh_joinCh (sep : Char) (ps : List (List Char))
    (hps : ∀ p ∈ ps, sep ∉ p) (hne : ps ≠ []) :
    splitCh sep (joinCh sep ps) = ps := by
  induction ps with
  | nil => exact absurd rfl hne
  | cons x t ih =>
    cases t with
    | nil =>
      simp only [joinCh]
      exact splitCh_no_sep sep x (hps x (List.mem_cons_self x []))
    | cons y t2 =>
      simp only [joinCh]
      rw [splitCh_append_sep sep x (joinCh sep (y :: t2))
        (hps x (List.mem_cons_self x (y :: t2)))]
      rw [ih (fun p hp => hps p (List.mem_cons_of_mem x hp)) (by simp)]

/-- Joining a non-singleton list starts with the first piece and a
separator. -/
theorem joinCh_cons_ne (sep : Char) (x : List Char) (l : List (List Char))
    (h : l ≠ []) : joinCh sep (x :: l) = x ++ sep :: joinCh sep l := by
  cases l with
  | nil => exact absurd rfl h
  | cons y t => rfl

/-- The first piece of a split is the longest separator-free initial
block. -/
theorem splitCh_headD_takeWhile (sep : Char) (l : List Char) :
    (splitCh sep l).headD [] = l.takeWhile (fun c => c ≠ sep) := by
  induction l with
  | nil => rfl
  | cons c rest ih =>
    simp only [splitCh]
    cases hr : splitCh sep rest with
    | nil => exact absurd hr (splitCh_ne_nil sep rest)
    | cons h t =>
      rw [hr] at ih
      by_cases hc : c = sep
      · subst hc
        simp [List.takeWhile_cons]
      · simp only [if_neg hc, List.headD_cons]
        rw [List.takeWhile_cons_of_pos (by simpa using hc)]
        simp only [List.headD_cons] at ih
        rw [ih]

/-- A pattern that is a suffix of `a ++ d :: b` and avoids `d` is already
a suffix of `b`. -/
theorem suffix_through_sep {p a b : List Char} {d : Char}
    (hs : p <:+ a ++ d :: b) (hd : d ∉ p) : p <:+ b := by
  have hb : d :: b <:+ a ++ d :: b := List.suffix_append a (d :: b)
  rcases List.suffix_or_suffix_of_suffix hs hb with h | h
  · obtain ⟨t, ht⟩ := h
    cases t with
    | nil =>
      exfalso
      apply hd
      rw [List.nil_append] at ht
      rw [ht]
      exact List.mem_cons_self d b
    | cons e t2 =>
      have : t2 ++ p = b := by
        have := ht
        simp only [List.cons_append] at this
        exact (List.cons.injEq e (t2 ++ p) d b).mp this |>.2
      exact ⟨t2, this⟩
  · exfalso
    exact hd (List.IsSuffix.mem (List.mem_cons_self d b) h)

/-- Value of the filename normalizer on a wheel name with at least three
segments whose version segment carries a `+`. -/
theorem normalize_wheel_filename_strip (f p0 p1 : List Char)
    (ps : List (List Char)) (hs : wheelExt <:+ f)
    (hp : splitCh '-' f = p0 :: p1 :: ps) (hne : ps ≠ [])
    (hplus : '+' ∈ p1) :
    normalize_wheel_filename f =
      p0 ++ '-' :: ((splitCh '+' p1).headD [] ++ '-' :: joinCh '-' ps) := by
  have hl3 : ¬ ((splitCh '-' f).length < 3) := by
    rw [hp]
    have := List.length_pos.mpr hne
    simp
    omega
  rw [hp] at hl3
  simp only [normalize_wheel_filename, if_pos hs, hp, if_neg hl3,
    List.headD_cons, List.drop_succ_cons, List.drop_zero]
  rw [if_pos hplus]
  simp

/-- Value of the filename normalizer when the version segment has no
`+`: the name is returned unchanged. -/
theorem normalize_wheel_filename_no_plus (f p0 p1 : List Char)
    (ps : List (List Char)) (hs : wheelExt <:+ f)
    (hp : splitCh '-' f = p0 :: p1 :: ps) (hplus : '+' ∉ p1) :
    normalize_wheel_filename f = f := by
  by_cases hl3 : (splitCh '-' f).length < 3
  · simp only [normalize_wheel_filename, if_pos hs]
    rw [if_pos hl3]
  · rw [hp] at hl3
    simp only [normalize_wheel_filename, if_pos hs, hp, if_neg hl3,
      List.headD_cons, List.drop_succ_cons, List.drop_zero]
    rw [if_neg hplus]

/-- On the output of a version strip, the normalizer is the identity:
the stripped name is still a `.whl` name, splits into the same segments
with the stripped version in slot 1, and that version has no `+`. -/
theorem normalize_wheel_filename_fix_of_stripped (f p0 p1 : List Char)
    (ps : List (List Char)) (hs : wheelExt <:+ f)
    (hp : splitCh '-' f = p0 :: p1 :: ps) (hne : ps ≠ []) :
    normalize_wheel_filename
        (p0 ++ '-' :: ((splitCh '+' p1).headD [] ++ '-' :: joinCh '-' ps)) =
      p0 ++ '-' :: ((splitCh '+' p1).headD [] ++ '-' :: joinCh '-' ps) := by
  have hdash : ('-' : Char) ∉ wheelExt := by decide
  have hp0 : ('-' : Char) ∉ p0 :=
    (mem_splitCh '-' f p0 (hp ▸ List.mem_cons_self p0 (p1 :: ps))).1
  have hp1 : ('-' : Char) ∉ p1 :=
    (mem_splitCh '-' f p1
      (hp ▸ List.mem_cons_of_mem p0 (List.mem_cons_self p1 ps))).1
  have hps : ∀ p ∈ ps, ('-' : Char) ∉ p := by
    intro p hmem
    exact (mem_splitCh '-' f p
      (hp ▸ List.mem_cons_of_mem p0 (List.mem_cons_of_mem p1 hmem))).1
  have hbase : (splitCh '+' p1).headD [] = p1.takeWhile (fun c => c ≠ '+') :=
    splitCh_headD_takeWhile '+' p1
  have hbase_dash : ('-' : Char) ∉ (splitCh '+' p1).headD [] := by
    rw [hbase]
    intro hm
    exact hp1 (List.takeWhile_subset _ hm)
  have hbase_plus : ('+' : Char) ∉ (splitCh '+' p1).headD [] := by
    rw [hbase]
    intro hm
    have := List.mem_takeWhile_imp hm
    simp at this
  have hf : f = p0 ++ '-' :: (p1 ++ '-' :: joinCh '-' ps) := by
    conv_lhs => rw [← joinCh_splitCh '-' f, hp]
    rw [joinCh_cons_ne '-' p0 (p1 :: ps) (by simp),
      joinCh_cons_ne '-' p1 ps hne]
  have hsJ : wheelExt <:+ joinCh '-' ps := by
    have h1 : wheelExt <:+ p1 ++ '-' :: joinCh '-' ps :=
      suffix_through_sep (hf ▸ hs) hdash
    exact suffix_through_sep h1 hdash
  have hsg : wheelExt <:+
      p0 ++ '-' :: ((splitCh '+' p1).headD [] ++ '-' :: joinCh '-' ps) := by
    refine hsJ.trans ?_
    exact ⟨p0 ++ '-' :: ((splitCh '+' p1).headD [] ++ ['-']), by simp⟩
  have hsplitg : splitCh '-'
      (p0 ++ '-' :: ((splitCh '+' p1).headD [] ++ '-' :: joinCh '-' ps)) =
      p0 :: (splitCh '+' p1).headD [] :: ps := by
    rw [splitCh_append_sep '-' p0 _ hp0,
      splitCh_append_sep '-' _ _ hbase_dash,
      splitCh_joinCh '-' ps hps hne]
  exact normalize_wheel_filename_no_plus _ p0 ((splitCh '+' p1).headD [])
    ps hsg hsplitg hbase_plus

/-- C7: public filename normalization leaves non-`.whl` names unchanged;
on a wheel filename (at least the grammar's 5 segments) it is the
identity when the version segment has no `+`, and otherwise replaces
segment 1 by its prefix before the first `+`, keeping every other
segment; and it is idempotent on every input. -/
theorem c7_normalize_wheel_filename_strips_local_version (f : List Char) :
    (¬ (wheelExt <:+ f) → normalize_wheel_filename f = f) ∧
    (wheelExt <:+ f → 5 ≤ (splitCh '-' f).length →
      ('+' ∉ ((splitCh '-' f).drop 1).headD [] →
        normalize_wheel_filename f = f) ∧
      ('+' ∈ ((splitCh '-' f).drop 1).headD [] →
        normalize_wheel_filename f =
          joinCh '-' ((splitCh '-' f).set 1
            ((((splitCh '-' f).drop 1).headD []).takeWhile
              (fun c => c ≠ '+'))))) ∧
    normalize_wheel_filename (normalize_wheel_filename f) =
      normalize_wheel_filename f := by
  refine ⟨?_, ?_, ?_⟩
  · intro hs
    simp [normalize_wheel_filename, hs]
  · intro hs hlen
    obtain ⟨p0, p1, ps, hp⟩ :
        ∃ p0 p1 ps, splitCh '-' f = p0 :: p1 :: ps := by
      cases h : splitCh '-' f with
      | nil => exact absurd h (splitCh_ne_nil '-' f)
      | cons x t =>
        cases t with
        | nil =>
          rw [h] at hlen
          simp at hlen
        | cons y t2 => exact ⟨x, y, t2, rfl⟩
    have hne : ps ≠ [] := by
      rw [hp] at hlen
      simp at hlen
      intro h
      rw [h] at hlen
      simp at hlen
    constructor
    · intro hplus
      rw [hp] at hplus
      simp only [List.drop_succ_cons, List.drop_zero, List.headD_cons] at hplus
      exact normalize_wheel_filename_no_plus f p0 p1 ps hs hp hplus
    · intro hplus
      rw [hp] at hplus
      simp only [List.drop_succ_cons, List.drop_zero, List.headD_cons] at hplus
      rw [normalize_wheel_filename_strip f p0 p1 ps hs hp hne hplus, hp]
      simp only [List.drop_succ_cons, List.drop_zero, List.headD_cons,
        List.set_cons_succ, List.set_cons_zero]
      rw [joinCh_cons_ne '-' p0 _ (by simp),
        joinCh_cons_ne '-' _ ps hne,
        splitCh_headD_takeWhile '+' p1]
  · by_cases hs : wheelExt <:+ f
    · cases h : splitCh '-' f with
      | nil => exact absurd h (splitCh_ne_nil '-' f)
      | cons x t =>
        cases t with
        | nil =>
          have hfix : normalize_wheel_filename f = f := by
            simp [normalize_wheel_filename, hs, h]
          rw [hfix, hfix]
        | cons y t2 =>
          cases ht2 : t2 with
          | nil =>
            have hfix : normalize_wheel_filename f = f := by
              rw [ht2] at h
              simp [normalize_wheel_filename, hs, h]
            rw [hfix, hfix]
          | cons z t3 =>
            rw [ht2] at h
            have hne : z :: t3 ≠ [] := by simp
            by_cases hplus : '+' ∈ y
            · rw [normalize_wheel_filename_strip f x y (z :: t3) hs h hne hplus]
              exact normalize_wheel_filename_fix_of_stripped f x y (z :: t3)
                hs h hne
            · have hfix := normalize_wheel_filename_no_plus f x y (z :: t3)
                hs h hplus
              rw [hfix, hfix]
    · have hfix : normalize_wheel_filename f = f := by
        simp [normalize_wheel_filename, hs]
      rw [hfix, hfix]

/-- Witness for `c7_normalize_wheel_filename_strips_local_version` at the
scenario wheel name with a `+gitdead` local identifier. -/
theorem c7_normalize_wheel_filename_witness :
    normalize_wheel_filename
        "demo-1.2.0+gitdead-cp312-cp312-linux_x86_64.whl".toList =
      "demo-1.2.0-cp312-cp312-linux_x86_64.whl".toList := by
  have h := ((c7_normalize_wheel_filename_strips_local_version
    "demo-1.2.0+gitdead-cp312-cp312-linux_x86_64.whl".toList).2.1
    (by decide) (by decide)).2 (by decide)
  rw [h]
  decide

/-- Reduction of `removeWhl` on a head that does not start a `.whl`
occurrence. -/
theorem removeWhl_cons_no (c : Char) (rest : List Char)
    (h : ¬ (c = '.' ∧ ['w', 'h', 'l'] <+: rest)) :
    removeWhl (c :: rest) = c :: removeWhl rest := by
  conv_lhs => rw [removeWhl.eq_def]
  simp only []
  rw [if_neg h]

/-- A short prefix of an appended list is a prefix of the left part. -/
theorem prefix_append_iff_of_len {p a : List Char} (b : List Char)
    (h : p.length ≤ a.length) : p <+: a ++ b ↔ p <+: a := by
  constructor
  · intro hp
    rw [List.prefix_iff_eq_take] at hp ⊢
    rw [List.take_append_of_le_length h] at hp
    exact hp
  · intro hp
    exact hp.trans (List.prefix_append a b)

/-- Removing `.whl` occurrences from a string that ends in `.whl` and has
no other occurrence strips exactly the extension. -/
theorem removeWhl_append_ext (g : List Char) (h : hasWhl g = false) :
    removeWhl (g ++ wheelExt) = g := by
  induction g with
  | nil => rfl
  | cons c g2 ih =>
    have h2 : hasWhl g2 = false := by
      simp only [hasWhl, Bool.or_eq_false_iff] at h
      exact h.2
    have hcond : ¬ (c = '.' ∧ ['w', 'h', 'l'] <+: g2) := by
      simp only [hasWhl, Bool.or_eq_false_iff, decide_eq_false_iff_not] at h
      exact h.1
    have hcond2 : ¬ (c = '.' ∧ ['w', 'h', 'l'] <+: g2 ++ wheelExt) := by
      rcases le_or_lt 3 g2.length with hlen | hlen
      · intro hc
        exact hcond ⟨hc.1,
          (prefix_append_iff_of_len wheelExt (by simpa using hlen)).mp hc.2⟩
      · cases g2 with
        | nil =>
          rintro ⟨_, hp⟩
          exact absurd hp (by decide)
        | cons a g3 =>
          cases g3 with
          | nil =>
            rintro ⟨_, hp⟩
            rw [List.cons_append, List.nil_append, List.cons_prefix_cons] at hp
            exact absurd hp.2 (by decide)
          | cons b g4 =>
            cases g4 with
            | nil =>
              rintro ⟨_, hp⟩
              rw [List.cons_append, List.cons_append, List.nil_append,
                List.cons_prefix_cons, List.cons_prefix_cons] at hp
              exact absurd hp.2.2 (by decide)
            | cons d g5 =>
              exfalso
              simp at hlen
              omega
    rw [List.cons_append, removeWhl_cons_no c (g2 ++ wheelExt) hcond2, ih h2]

/-- C6 counterexample: on the name
`torch-2.9.0-cp312-cp312-linux_x86_64` (no `.whl` extension), the
synthesizer's extractor rejects while the rewriter's version extraction
accepts and returns `2.9.0`, so the two parsers do not accept the same
filenames. -/
theorem c6_parsers_disagree_without_extension :
    (∃ e, extract_wheel_metadata
        "torch-2.9.0-cp312-cp312-linux_x86_64".toList = .error e) ∧
    extract_version_from_wheel
        "torch-2.9.0-cp312-cp312-linux_x86_64".toList =
      .ok "2.9.0".toList := by
  constructor
  · exact ⟨"Not a wheel file: ".toList ++
      "torch-2.9.0-cp312-cp312-linux_x86_64".toList, rfl⟩
  · rfl

/-- C6 amended: restricted to filenames that end in `.whl` and contain
`.whl` only as that final extension, the two parsers agree — each fails
exactly when the other does, and on success the rewriter's version
equals the version component of the synthesizer's extractor. -/
theorem c6_parsers_agree_on_clean_wheel_names (f : List Char)
    (hs : wheelExt <:+ f)
    (hclean : hasWhl (f.take (f.length - 4)) = false) :
    ((∃ e, extract_wheel_metadata f = .error e) ↔
      (∃ e, extract_version_from_wheel f = .error e)) ∧
    (∀ n v t, extract_wheel_metadata f = .ok (n, v, t) →
      extract_version_from_wheel f = .ok v) := by
  obtain ⟨g, hg⟩ := hs
  subst hg
  have htake : (g ++ wheelExt).take ((g ++ wheelExt).length - 4) = g := by
    have hlen : (g ++ wheelExt).length - 4 = g.length := by
      simp [List.length_append]
      rfl
    rw [hlen]
    exact List.take_left' rfl
  rw [htake] at hclean
  have hrem : removeWhl (g ++ wheelExt) = g := removeWhl_append_ext g hclean
  have hsuf : wheelExt <:+ g ++ wheelExt := List.suffix_append g wheelExt
  unfold extract_wheel_metadata extract_version_from_wheel
  rw [hrem, htake, if_pos hsuf]
  by_cases hl : (splitCh '-' g).length < 5
  · constructor
    · rw [if_pos hl, if_pos hl]
      constructor
      · intro _
        exact ⟨_, rfl⟩
      · intro _
        exact ⟨_, rfl⟩
    · intro n v t h
      rw [if_pos hl] at h
      exact absurd h (by simp)
  · constructor
    · rw [if_neg hl, if_neg hl]
      constructor
      · rintro ⟨e, he⟩
        exact absurd he (by simp)
      · rintro ⟨e, he⟩
        exact absurd he (by simp)
    · intro n v t h
      rw [if_neg hl] at h ⊢
      simp only [Except.ok.injEq, Prod.mk.injEq] at h
      rw [h.2.1]

/-- Witness for `c6_parsers_agree_on_clean_wheel_names` at a clean wheel
filename. -/
theorem c6_parsers_agree_witness :
    extract_version_from_wheel
        "torch-2.9.0a0+git1c57644-cp312-cp312-linux_x86_64.whl".toList =
      .ok "2.9.0a0+git1c57644".toList :=
  (c6_parsers_agree_on_clean_wheel_names
      "torch-2.9.0a0+git1c57644-cp312-cp312-linux_x86_64.whl".toList
      (by decide) (by decide)).2
    "torch".toList "2.9.0a0+git1c57644".toList "cp312".toList rfl

/-- After inserting, the inserted file is in the entry at its key. -/
theorem lookupG_insert_self (m : List (List Char × List (List Char)))
    (k f : List Char) :
    ∃ fs, lookupG (insertGroup m k f) k = some fs ∧ f ∈ fs := by
  induction m with
  | nil =>
    refine ⟨[f], ?_, by simp⟩
    simp [insertGroup, lookupG]
  | cons p rest ih =>
    obtain ⟨k2, fs2⟩ := p
    by_cases h : k2 = k
    · subst h
      refine ⟨fs2 ++ [f], ?_, by simp⟩
      simp [insertGroup, lookupG]
    · obtain ⟨fs, h1, h2⟩ := ih
      refine ⟨fs, ?_, h2⟩
      simp only [insertGroup, if_neg h, lookupG]
      exact h1

/-- Insertion never removes a file from the entry at any key. -/
theorem lookupG_insert_preserve (m : List (List Char × List (List Char)))
    (k k2 g f : List Char) (fs : List (List Char))
    (hl : lookupG m k = some fs) (hf : f ∈ fs) :
    ∃ fs2, lookupG (insertGroup m k2 g) k = some fs2 ∧ f ∈ fs2 := by
  induction m with
  | nil => simp [lookupG] at hl
  | cons p rest ih =>
    obtain ⟨ka, fsa⟩ := p
    by_cases hak : ka = k
    · subst hak
      simp only [lookupG, if_true, eq_self_iff_true] at hl
      have hfs := Option.some.inj hl
      subst hfs
      by_cases hak2 : ka = k2
      · subst hak2
        refine ⟨fsa ++ [g], ?_, List.mem_append_left [g] hf⟩
        rw [show insertGroup ((ka, fsa) :: rest) ka g =
            (ka, fsa ++ [g]) :: rest by simp [insertGroup]]
        simp [lookupG]
      · refine ⟨fsa, ?_, hf⟩
        rw [show insertGroup ((ka, fsa) :: rest) k2 g =
            (ka, fsa) :: insertGroup rest k2 g by simp [insertGroup, hak2]]
        simp [lookupG]
    · simp only [lookupG, if_neg hak] at hl
      obtain ⟨fs2, h1, h2⟩ := ih hl
      by_cases hak2 : ka = k2
      · subst hak2
        refine ⟨fs, ?_, hf⟩
        rw [show insertGroup ((ka, fsa) :: rest) ka g =
            (ka, fsa ++ [g]) :: rest by simp [insertGroup]]
        simp only [lookupG, if_neg hak]
        exact hl
      · refine ⟨fs2, ?_, h2⟩
        rw [show insertGroup ((ka, fsa) :: rest) k2 g =
            (ka, fsa) :: insertGroup rest k2 g by simp [insertGroup, hak2]]
        simp only [lookupG, if_neg hak]
        exact h1

/-- Keys after insertion: unchanged when the key is present, appended
otherwise. -/
theorem mapfst_insertGroup (m : List (List Char × List (List Char)))
    (k f : List Char) :
    (insertGroup m k f).map Prod.fst =
      if k ∈ m.map Prod.fst then m.map Prod.fst
      else m.map Prod.fst ++ [k] := by
  induction m with
  | nil => simp [insertGroup]
  | cons p rest ih =>
    obtain ⟨k2, fs2⟩ := p
    by_cases h : k2 = k
    · subst h
      simp [insertGroup]
    · simp only [insertGroup, if_neg h, List.map_cons, ih]
      by_cases hm : k ∈ rest.map Prod.fst
      · rw [if_pos hm, if_pos (by simp [hm])]
      · rw [if_neg hm, if_neg (by simp [hm, Ne.symm h])]
        simp

/-- Key uniqueness is preserved by insertion. -/
theorem nodup_insertGroup (m : List (List Char × List (List Char)))
    (k f : List Char) (h : (m.map Prod.fst).Nodup) :
    ((insertGroup m k f).map Prod.fst).Nodup := by
  rw [mapfst_insertGroup]
  by_cases hm : k ∈ m.map Prod.fst
  · rw [if_pos hm]
    exact h
  · rw [if_neg hm]
    simp [List.nodup_append, h, hm]

/-- Every file in an entry after insertion either was already in an
entry with the same key, or is the inserted file under the inserted
key. -/
theorem insertGroup_sound (m : List (List Char × List (List Char)))
    (k f : List Char) :
    ∀ p ∈ insertGroup m k f, ∀ x ∈ p.2,
      (∃ q ∈ m, q.1 = p.1 ∧ x ∈ q.2) ∨ (x = f ∧ p.1 = k) := by
  induction m with
  | nil =>
    intro p hp x hx
    simp only [insertGroup, List.mem_singleton] at hp
    subst hp
    simp only [List.mem_singleton] at hx
    exact Or.inr ⟨hx, rfl⟩
  | cons q rest ih =>
    obtain ⟨ka, fsa⟩ := q
    intro p hp x hx
    by_cases h : ka = k
    · subst h
      rw [show insertGroup ((ka, fsa) :: rest) ka f =
          (ka, fsa ++ [f]) :: rest by simp [insertGroup]] at hp
      rcases List.mem_cons.mp hp with rfl | hp2
      · simp only at hx
        rcases List.mem_append.mp hx with h2 | h2
        · exact Or.inl ⟨(ka, fsa), List.mem_cons_self _ _, rfl, h2⟩
        · simp only [List.mem_singleton] at h2
          exact Or.inr ⟨h2, rfl⟩
      · exact Or.inl ⟨p, List.mem_cons_of_mem _ hp2, rfl, hx⟩
    · rw [show insertGroup ((ka, fsa) :: rest) k f =
          (ka, fsa) :: insertGroup rest k f by simp [insertGroup, h]] at hp
      rcases List.mem_cons.mp hp with rfl | hp2
      · exact Or.inl ⟨(ka, fsa), List.mem_cons_self _ _, rfl, hx⟩
      · rcases ih p hp2 x hx with ⟨q2, hq2, he, hxq⟩ | hr
        · exact Or.inl ⟨q2, List.mem_cons_of_mem _ hq2, he, hxq⟩
        · exact Or.inr hr

/-- Entries stay non-empty under insertion. -/
theorem insertGroup_nonempty (m : List (List Char × List (List Char)))
    (k f : List Char) (h : ∀ q ∈ m, q.2 ≠ []) :
    ∀ p ∈ insertGroup m k f, p.2 ≠ [] := by
  induction m with
  | nil =>
    intro p hp
    simp only [insertGroup, List.mem_singleton] at hp
    subst hp
    simp
  | cons q rest ih =>
    obtain ⟨ka, fsa⟩ := q
    intro p hp
    by_cases hk : ka = k
    · subst hk
      rw [show insertGroup ((ka, fsa) :: rest) ka f =
          (ka, fsa ++ [f]) :: rest by simp [insertGroup]] at hp
      rcases List.mem_cons.mp hp with rfl | hp2
      · simp
      · exact h p (List.mem_cons_of_mem _ hp2)
    · rw [show insertGroup ((ka, fsa) :: rest) k f =
          (ka, fsa) :: insertGroup rest k f by simp [insertGroup, hk]] at hp
      rcases List.mem_cons.mp hp with rfl | hp2
      · exact h (ka, fsa) (List.mem_cons_self _ _)
      · exact ih (fun q hq => h q (List.mem_cons_of_mem _ hq)) p hp2

/-- Membership of a file in its entry is preserved across the rest of
the grouping fold. -/
theorem foldl_groupStep_preserve (rest : List (List Char))
    (m : List (List Char × List (List Char))) (k f : List Char)
    (h : ∃ fs, lookupG m k = some fs ∧ f ∈ fs) :
    ∃ fs, lookupG (rest.foldl groupStep m) k = some fs ∧ f ∈ fs := by
  induction rest generalizing m with
  | nil => exact h
  | cons w tail ih =>
    rw [List.foldl_cons]
    apply ih
    obtain ⟨fs, h1, h2⟩ := h
    cases hext : extract_wheel_metadata w with
    | error e =>
      rw [show groupStep m w = m by simp [groupStep, hext]]
      exact ⟨fs, h1, h2⟩
    | ok nvt =>
      obtain ⟨n, v, t⟩ := nvt
      rw [show groupStep m w = insertGroup m (normalize_package_name n) w by
        simp [groupStep, hext]]
      exact lookupG_insert_preserve m k (normalize_package_name n) w f fs h1 h2

/-- Every successfully parsed file of the fold's input ends up in the
entry at its normalized name. -/
theorem foldl_groupStep_mem (files : List (List Char))
    (m : List (List Char × List (List Char))) (f n v t : List Char)
    (hf : f ∈ files) (hext : extract_wheel_metadata f = .ok (n, v, t)) :
    ∃ fs, lookupG (files.foldl groupStep m) (normalize_package_name n) =
      some fs ∧ f ∈ fs := by
  induction files generalizing m with
  | nil => cases hf
  | cons w tail ih =>
    rw [List.foldl_cons]
    rcases List.mem_cons.mp hf with rfl | hf2
    · apply foldl_groupStep_preserve
      rw [show groupStep m f = insertGroup m (normalize_package_name n) f by
        simp [groupStep, hext]]
      exact lookupG_insert_self m (normalize_package_name n) f
    · exact ih (groupStep m w) hf2

/-- The grouping fold preserves: non-empty entries, soundness of every
entry (each member parses and normalizes to the entry's key), and key
uniqueness. -/
theorem foldl_groupStep_inv (files : List (List Char))
    (m : List (List Char × List (List Char)))
    (h1 : ∀ p ∈ m, p.2 ≠ [])
    (h2 : ∀ p ∈ m, ∀ x ∈ p.2, ∃ n v t,
      extract_wheel_metadata x = .ok (n, v, t) ∧
      p.1 = normalize_package_name n)
    (h3 : (m.map Prod.fst).Nodup) :
    (∀ p ∈ files.foldl groupStep m, p.2 ≠ []) ∧
    (∀ p ∈ files.foldl groupStep m, ∀ x ∈ p.2, ∃ n v t,
      extract_wheel_metadata x = .ok (n, v, t) ∧
      p.1 = normalize_package_name n) ∧
    ((files.foldl groupStep m).map Prod.fst).Nodup := by
  induction files generalizing m with
  | nil => exact ⟨h1, h2, h3⟩
  | cons w tail ih =>
    rw [List.foldl_cons]
    cases hext : extract_wheel_metadata w with
    | error e =>
      rw [show groupStep m w = m by simp [groupStep, hext]]
      exact ih m h1 h2 h3
    | ok nvt =>
      obtain ⟨n, v, t⟩ := nvt
      rw [show groupStep m w = insertGroup m (normalize_package_name n) w by
        simp [groupStep, hext]]
      apply ih
      · exact insertGroup_nonempty m (normalize_package_name n) w h1
      · intro p hp x hx
        rcases insertGroup_sound m (normalize_package_name n) w p hp x hx with
          ⟨q, hq, he, hxq⟩ | ⟨hxw, he⟩
        · obtain ⟨n2, v2, t2, hq1, hq2⟩ := h2 q hq x hxq
          exact ⟨n2, v2, t2, hq1, he ▸ hq2⟩
        · subst hxw
          exact ⟨n, v, t, hext, he⟩
      · exact nodup_insertGroup m (normalize_package_name n) w h3

/-- C2: in the synthesizer's grouping, (i) every artifact whose filename
parses is in the entry keyed by its normalized name, (ii) every entry
member parses and normalizes to its entry's key, (iii) entry keys are
unique (so each artifact is in exactly one per-package document), (iv)
no entry is empty, and (v) two artifacts whose names normalize
identically land in the same entry. -/
theorem c2_grouping_partitions_parsed_wheels (files : List (List Char)) :
    (∀ f n v t, f ∈ files → extract_wheel_metadata f = .ok (n, v, t) →
      ∃ fs, lookupG (groupWheels files) (normalize_package_name n) =
        some fs ∧ f ∈ fs) ∧
    (∀ p ∈ groupWheels files, ∀ f ∈ p.2, ∃ n v t,
      extract_wheel_metadata f = .ok (n, v, t) ∧
      p.1 = normalize_package_name n) ∧
    ((groupWheels files).map Prod.fst).Nodup ∧
    (∀ p ∈ groupWheels files, p.2 ≠ []) ∧
    (∀ f1 f2 n1 v1 t1 n2 v2 t2, f1 ∈ files → f2 ∈ files →
      extract_wheel_metadata f1 = .ok (n1, v1, t1) →
      extract_wheel_metadata f2 = .ok (n2, v2, t2) →
      normalize_package_name n1 = normalize_package_name n2 →
      ∃ fs, lookupG (groupWheels files) (normalize_package_name n1) =
        some fs ∧ f1 ∈ fs ∧ f2 ∈ fs) := by
  have hinv := foldl_groupStep_inv files [] (by simp) (by simp) (by simp)
  refine ⟨?_, hinv.2.1, hinv.2.2, hinv.1, ?_⟩
  · intro f n v t hf hext
    exact foldl_groupStep_mem files [] f n v t hf hext
  · intro f1 f2 n1 v1 t1 n2 v2 t2 hf1 hf2 hext1 hext2 hnorm
    obtain ⟨fs1, hl1, hm1⟩ := foldl_groupStep_mem files [] f1 n1 v1 t1 hf1 hext1
    obtain ⟨fs2, hl2, hm2⟩ := foldl_groupStep_mem files [] f2 n2 v2 t2 hf2 hext2
    rw [← hnorm] at hl2
    exact ⟨fs1, hl1, hm1, Option.some.inj (hl1.symm.trans hl2) ▸ hm2⟩

/-- Witness for `c2_grouping_partitions_parsed_wheels`: two wheels whose
raw names `Foo_Bar` and `foo.bar` normalize identically land in the one
entry keyed `foo-bar`. -/
theorem c2_grouping_witness :
    ∃ fs, lookupG (groupWheels
        ["Foo_Bar-1.0-cp312-cp312-linux_x86_64.whl".toList,
         "foo.bar-2.0-py3-none-any.whl".toList])
        (normalize_package_name "Foo_Bar".toList) = some fs ∧
      "Foo_Bar-1.0-cp312-cp312-linux_x86_64.whl".toList ∈ fs ∧
      "foo.bar-2.0-py3-none-any.whl".toList ∈ fs :=
  (c2_grouping_partitions_parsed_wheels
      ["Foo_Bar-1.0-cp312-cp312-linux_x86_64.whl".toList,
       "foo.bar-2.0-py3-none-any.whl".toList]).2.2.2.2
    "Foo_Bar-1.0-cp312-cp312-linux_x86_64.whl".toList
    "foo.bar-2.0-py3-none-any.whl".toList
    "Foo_Bar".toList "1.0".toList "cp312".toList
    "foo.bar".toList "2.0".toList "py3".toList
    (by decide) (by decide) rfl rfl (by decide)

/-- Witness for `c4_tag_branching_is_structural` at `cp312`, `py39`,
`py3` and `foo`. -/
theorem c4_tag_branching_is_structural_witness :
    python_tag_to_requires_python "cp312".toList = "&gt;=3.12".toList ∧
    python_tag_to_requires_python "py39".toList = "&gt;=3.9".toList ∧
    python_tag_to_requires_python "py3".toList = "&gt;=3.0".toList ∧
    python_tag_to_requires_python "foo".toList = [] := by
  refine ⟨?_, ?_, ?_, ?_⟩
  · exact (c4_tag_branching_is_structural "cp312".toList).1 (by decide) (by decide)
  · exact (c4_tag_branching_is_structural "py39".toList).2.2.1 (by decide)
      (by decide) (by decide) (by decide)
  · exact (c4_tag_branching_is_structural "py3".toList).2.2.2.1 (by decide)
      (by decide) (by decide) (Or.inr (by decide))
  · exact (c4_tag_branching_is_structural "foo".toList).2.2.2.2.2 (by decide)
      (by decide)


/-- The fuel supplied by `matchAt` dwarfs the linear amount any of the
rewriter's patterns can consume. -/
theorem fuelFor_big (s : List Char) : 2 * s.length + 60 ≤ fuelFor s := by
  unfold fuelFor
  have h1 : 80 ≤ s.length + 80 := by omega
  have h2 : 80 * (s.length + 80) ≤ (s.length + 80) * (s.length + 80) :=
    Nat.mul_le_mul_right _ h1
  omega

/-- Step equation of the matcher on `eps`. -/
theorem mrun_eps_step (f : Nat) (s : List Char) (cp : Caps)
    (k : List Char → Caps → Option (List Char × Caps)) (hf : 0 < f) :
    mrun f .eps s cp k = k s cp := by
  cases f with
  | zero => omega
  | succ f2 => simp [mrun]

/-- Step equation of the matcher on a literal. -/
theorem mrun_lit_step (f : Nat) (c : Char) (s : List Char) (cp : Caps)
    (k : List Char → Caps → Option (List Char × Caps)) (hf : 0 < f) :
    mrun f (.lit c) s cp k =
      match s with
      | [] => none
      | c2 :: rest => if c2 = c then k rest cp else none := by
  cases f with
  | zero => omega
  | succ f2 => simp [mrun]

/-- Step equation of the matcher on a character class. -/
theorem mrun_cls_step (f : Nat) (cl : CC) (s : List Char) (cp : Caps)
    (k : List Char → Caps → Option (List Char × Caps)) (hf : 0 < f) :
    mrun f (.cls cl) s cp k =
      match s with
      | [] => none
      | c2 :: rest => if cl.test c2 then k rest cp else none := by
  cases f with
  | zero => omega
  | succ f2 => simp [mrun]

/-- Step equation of the matcher on a sequence. -/
theorem mrun_seq_step (f : Nat) (a b : RE) (s : List Char) (cp : Caps)
    (k : List Char → Caps → Option (List Char × Caps)) (hf : 0 < f) :
    mrun f (.seq a b) s cp k =
      mrun (f - 1) a s cp (fun s2 cp2 => mrun (f - 1) b s2 cp2 k) := by
  cases f with
  | zero => omega
  | succ f2 => simp [mrun]

/-- Step equation of the matcher on an alternation. -/
theorem mrun_alt_step (f : Nat) (a b : RE) (s : List Char) (cp : Caps)
    (k : List Char → Caps → Option (List Char × Caps)) (hf : 0 < f) :
    mrun f (.alt a b) s cp k =
      match mrun (f - 1) a s cp k with
      | some r => some r
      | none => mrun (f - 1) b s cp k := by
  cases f with
  | zero => omega
  | succ f2 => simp [mrun]

/-- Step equation of the matcher on a greedy star. -/
theorem mrun_star_greedy_step (f : Nat) (a : RE) (s : List Char)
    (cp : Caps) (k : List Char → Caps → Option (List Char × Caps))
    (hf : 0 < f) :
    mrun f (.star false a) s cp k =
      match mrun (f - 1) a s cp (fun s2 cp2 =>
          if s2.length < s.length then mrun (f - 1) (.star false a) s2 cp2 k
          else none) with
      | some r => some r
      | none => k s cp := by
  cases f with
  | zero => omega
  | succ f2 => simp [mrun]

/-- Step equation of the matcher on a capturing group. -/
theorem mrun_grp_step (f : Nat) (n : Nat) (a : RE) (s : List Char)
    (cp : Caps) (k : List Char → Caps → Option (List Char × Caps))
    (hf : 0 < f) :
    mrun f (.grp n a) s cp k =
      mrun (f - 1) a s cp (fun s2 cp2 =>
        k s2 ((n, s.take (s.length - s2.length)) :: cp2)) := by
  cases f with
  | zero => omega
  | succ f2 => simp [mrun]

/-- Step equation of the matcher on the end anchor. -/
theorem mrun_eol_step (f : Nat) (s : List Char) (cp : Caps)
    (k : List Char → Caps → Option (List Char × Caps)) (hf : 0 < f) :
    mrun f .eol s cp k =
      if s = [] ∨ s = ['\n'] then k s cp else none := by
  cases f with
  | zero => omega
  | succ f2 => simp [mrun]

/-- A greedy class-star consumes a maximal run of class characters when
the continuation succeeds immediately after it. -/
theorem starCls_commit (cl : CC) (w : List Char) :
    ∀ (s : List Char) (cp : Caps)
      (k : List Char → Caps → Option (List Char × Caps))
      (x : List Char × Caps) (f : Nat),
      w.all cl.test = true → headNotIn cl s = true → k s cp = some x →
      w.length + 2 ≤ f →
      mrun f (.star false (.cls cl)) (w ++ s) cp k = some x := by
  induction w with
  | nil =>
    intro s cp k x f hall hnot hk hf
    rw [List.nil_append, mrun_star_greedy_step _ _ _ _ _ (by omega)]
    have hbody : mrun (f - 1) (.cls cl) s cp (fun s2 cp2 =>
        if s2.length < s.length then
          mrun (f - 1) (.star false (.cls cl)) s2 cp2 k
        else none) = none := by
      rw [mrun_cls_step _ _ _ _ _ (by omega)]
      cases s with
      | nil => rfl
      | cons c t =>
        simp only [headNotIn, Bool.not_eq_true'] at hnot
        simp [hnot]
    rw [hbody]
    simpa using hk
  | cons c w2 ih =>
    intro s cp k x f hall hnot hk hf
    simp only [List.all_cons, Bool.and_eq_true] at hall
    rw [List.cons_append, mrun_star_greedy_step _ _ _ _ _ (by omega)]
    have hbody : mrun (f - 1) (.cls cl) (c :: (w2 ++ s)) cp (fun s2 cp2 =>
        if s2.length < (c :: (w2 ++ s)).length then
          mrun (f - 1) (.star false (.cls cl)) s2 cp2 k
        else none) =
        mrun (f - 1) (.star false (.cls cl)) (w2 ++ s) cp k := by
      rw [mrun_cls_step _ _ _ _ _ (by omega)]
      simp [hall.1]
    rw [hbody]
    have hrec := ih s cp k x (f - 1) hall.2 hnot hk
      (by simp only [List.length_cons] at hf; omega)
    rw [hrec]

/-- A greedy `class+` consumes a maximal non-empty run of class
characters when the continuation succeeds immediately after it. -/
theorem plusCls_commit (cl : CC) (w s : List Char) (cp : Caps)
    (k : List Char → Caps → Option (List Char × Caps))
    (x : List Char × Caps) (f : Nat)
    (hne : w ≠ []) (hall : w.all cl.test = true)
    (hnot : headNotIn cl s = true) (hk : k s cp = some x)
    (hf : w.length + 4 ≤ f) :
    mrun f (rePlus (.cls cl)) (w ++ s) cp k = some x := by
  cases w with
  | nil => exact absurd rfl hne
  | cons c w2 =>
    simp only [List.all_cons, Bool.and_eq_true] at hall
    rw [show rePlus (.cls cl) = .seq (.cls cl) (.star false (.cls cl))
      from rfl]
    rw [mrun_seq_step _ _ _ _ _ _ (by omega)]
    rw [List.cons_append, mrun_cls_step _ _ _ _ _ (by omega)]
    simp only [hall.1, if_true]
    exact starCls_commit cl w2 s cp k x (f - 1) hall.2 hnot hk
      (by simp only [List.length_cons] at hf; omega)

/-- The embedded package-name pattern deterministically consumes exactly
the package name. -/
theorem nameRE_run (pkg : List Char) :
    ∀ (s : List Char) (cp : Caps)
      (k : List Char → Caps → Option (List Char × Caps)) (f : Nat),
      2 * pkg.length + 1 ≤ f →
      mrun f (nameRE pkg) (pkg ++ s) cp k = k s cp := by
  induction pkg with
  | nil =>
    intro s cp k f hf
    rw [show nameRE [] = .eps from rfl, List.nil_append]
    exact mrun_eps_step _ _ _ _ (by omega)
  | cons c pkg2 ih =>
    intro s cp k f hf
    rw [show nameRE (c :: pkg2) =
        .seq (if c = '-' then RE.cls .dashUnder else RE.lit c)
          (nameRE pkg2) from rfl]
    rw [mrun_seq_step _ _ _ _ _ _
      (by simp only [List.length_cons] at hf; omega), List.cons_append]
    have hrec := ih s cp k (f - 1)
      (by simp only [List.length_cons] at hf; omega)
    by_cases hc : c = '-'
    · subst hc
      rw [if_pos rfl, mrun_cls_step _ _ _ _ _
        (by simp only [List.length_cons] at hf; omega)]
      simp [CC.test, hrec]
    · rw [if_neg hc, mrun_lit_step _ _ _ _ _
        (by simp only [List.length_cons] at hf; omega)]
      simp [hrec]

/-- Explicit nested-`seq` shape of pattern 1. -/
theorem pat1_eq (pkg : List Char) :
    pat1 pkg =
      .seq (.grp 1 (rePlus (.cls .ws)))
        (.seq (nameRE pkg)
          (.seq (reStar (.cls .ws))
            (.seq (.lit '>')
              (.seq (.lit '=')
                (.seq (reStar (.cls .ws))
                  (.seq (rePlus (.cls .digitDot))
                    (.seq (reStar (.cls .ws))
                      (.seq (.alt (.lit ',') (.alt .eol (.lit '\n')))
                        .eps)))))))) := rfl

/-- Explicit nested-`seq` shape of pattern 2. -/
theorem pat2_eq (pkg : List Char) :
    pat2 pkg =
      .seq (.grp 1 (.cls .quoteCh))
        (.seq (nameRE pkg)
          (.seq (reStar (.cls .ws))
            (.seq (.lit '>')
              (.seq (.lit '=')
                (.seq (reStar (.cls .ws))
                  (.seq (rePlus (.cls .digitDot))
                    (.seq (reStar (.cls .ws))
                      (.seq (reOpt (.seq (.lit ',')
                          (.star true (.cls .anyNoNl))))
                        (.seq (.grp 2 (.cls .quoteCh)) .eps))))))))) := rfl

/-- Explicit nested-`seq` shape of pattern 3. -/
theorem pat3_eq (pkg : List Char) :
    pat3 pkg =
      .seq (nameRE pkg)
        (.seq (reStar (.cls .ws))
          (.seq (.lit '=')
            (.seq (reStar (.cls .ws))
              (.seq (.lit '"')
                (.seq (.lit '>')
                  (.seq (.lit '=')
                    (.seq (reStar (.cls .ws))
                      (.seq (rePlus (.cls .digitDot))
                        (.seq (.lit '"') .eps))))))))) := rfl

/-- Pattern 1 cannot match at a position that does not start with
whitespace. -/
theorem matchAt_pat1_head (pkg s : List Char)
    (h : headNotIn CC.ws s = true) : matchAt (pat1 pkg) s = none := by
  have hF := fuelFor_big s
  simp only [matchAt, pat1_eq]
  rw [mrun_seq_step _ _ _ _ _ _ (by omega)]
  rw [mrun_grp_step _ _ _ _ _ _ (by omega)]
  rw [show rePlus (.cls .ws) = .seq (.cls .ws) (.star false (.cls .ws))
    from rfl]
  rw [mrun_seq_step _ _ _ _ _ _ (by omega)]
  rw [mrun_cls_step _ _ _ _ _ (by omega)]
  cases s with
  | nil => rfl
  | cons c t =>
    simp only [headNotIn, Bool.not_eq_true'] at h
    simp [h]

/-- With a non-empty package name, the embedded name pattern fails on an
empty input. -/
theorem mrun_nameRE_nil (pkg : List Char) (hne : pkg ≠ []) (f : Nat)
    (cp : Caps) (k : List Char → Caps → Option (List Char × Caps))
    (hf : 2 ≤ f) : mrun f (nameRE pkg) [] cp k = none := by
  cases pkg with
  | nil => exact absurd rfl hne
  | cons c pkg2 =>
    rw [show nameRE (c :: pkg2) =
        .seq (if c = '-' then RE.cls .dashUnder else RE.lit c)
          (nameRE pkg2) from rfl]
    rw [mrun_seq_step _ _ _ _ _ _ (by omega)]
    by_cases hc : c = '-'
    · rw [if_pos hc, mrun_cls_step _ _ _ _ _ (by omega)]
    · rw [if_neg hc, mrun_lit_step _ _ _ _ _ (by omega)]

/-- Pattern 1 cannot match at a final newline: the whitespace is
consumed but the package name finds an empty input. -/
theorem matchAt_pat1_single_newline (pkg : List Char) (hne : pkg ≠ []) :
    matchAt (pat1 pkg) ['\n'] = none := by
  have hF := fuelFor_big ['\n']
  simp only [List.length_cons, List.length_nil] at hF
  simp only [matchAt, pat1_eq]
  rw [mrun_seq_step _ _ _ _ _ _ (by omega)]
  rw [mrun_grp_step _ _ _ _ _ _ (by omega)]
  rw [show rePlus (.cls .ws) = .seq (.cls .ws) (.star false (.cls .ws))
    from rfl]
  rw [mrun_seq_step _ _ _ _ _ _ (by omega)]
  rw [mrun_cls_step _ _ _ _ _ (by omega)]
  simp only [CC.test, List.length_cons]
  rw [if_pos (by simp)]
  rw [mrun_star_greedy_step _ _ _ _ _ (by omega)]
  rw [mrun_cls_step _ _ _ _ _ (by omega)]
  simp only []
  rw [mrun_seq_step _ _ _ _ _ _ (by omega)]
  rw [mrun_nameRE_nil pkg hne _ _ _ (by omega)]

/-- Digit-or-dot characters are not whitespace. -/
theorem digitDot_not_ws (c : Char) (h : CC.digitDot.test c = true) :
    CC.ws.test c = false := by
  by_contra hw
  rw [Bool.not_eq_false] at hw
  simp only [CC.test, Bool.or_eq_true, decide_eq_true_eq] at hw
  rcases hw with ((((rfl | rfl) | rfl) | rfl) | rfl) | rfl <;>
    exact absurd h (by decide)

/-- A literal consumes its own character. -/
theorem mrun_lit_hit (f : Nat) (c : Char) (t : List Char) (cp : Caps)
    (k : List Char → Caps → Option (List Char × Caps)) (hf : 0 < f) :
    mrun f (.lit c) (c :: t) cp k = k t cp := by
  cases f with
  | zero => omega
  | succ f2 => simp [mrun]

/-- Pattern 1 matches a loose lower-bound constraint followed by a comma,
consuming the leading whitespace (captured as group 1), the package
name, `>=`, the numeric bound and the comma — and nothing after the
comma. -/
theorem matchAt_pat1_hit (pkg X wsp rest : List Char)
    (hwsp_ne : wsp ≠ []) (hwsp : wsp.all CC.ws.test = true)
    (hhead : headNotIn CC.ws
      (pkg ++ ' ' :: '>' :: '=' :: ' ' :: (X ++ ',' :: rest)) = true)
    (hX_ne : X ≠ []) (hX : X.all CC.digitDot.test = true) :
    matchAt (pat1 pkg)
        (wsp ++ (pkg ++ ' ' :: '>' :: '=' :: ' ' :: (X ++ ',' :: rest))) =
      some (rest, [(1, wsp)]) := by
  cases X with
  | nil => exact absurd rfl hX_ne
  | cons x0 X2 =>
    simp only [List.all_cons, Bool.and_eq_true] at hX
    have hx0ws : CC.ws.test x0 = false := digitDot_not_ws x0 hX.1
    have hlen : (wsp ++ (pkg ++ ' ' :: '>' :: '=' :: ' ' ::
        ((x0 :: X2) ++ ',' :: rest))).length =
        wsp.length + pkg.length + X2.length + rest.length + 6 := by
      simp [List.length_append]
      omega
    have hF := fuelFor_big (wsp ++ (pkg ++ ' ' :: '>' :: '=' :: ' ' ::
        ((x0 :: X2) ++ ',' :: rest)))
    simp only [matchAt, pat1_eq]
    rw [mrun_seq_step _ _ _ _ _ _ (by first | omega | (simp only [List.length_cons, List.length_nil]; omega))]
    rw [mrun_grp_step _ _ _ _ _ _ (by first | omega | (simp only [List.length_cons, List.length_nil]; omega))]
    refine plusCls_commit CC.ws wsp _ [] _ _ _ hwsp_ne hwsp hhead ?_
      (by first | omega | (simp only [List.length_cons, List.length_nil]; omega))
    have hcap : (wsp ++ (pkg ++ ' ' :: '>' :: '=' :: ' ' ::
        ((x0 :: X2) ++ ',' :: rest))).take
        ((wsp ++ (pkg ++ ' ' :: '>' :: '=' :: ' ' ::
          ((x0 :: X2) ++ ',' :: rest))).length -
         (pkg ++ ' ' :: '>' :: '=' :: ' ' ::
          ((x0 :: X2) ++ ',' :: rest)).length) = wsp := by
      simp [List.length_append]
    rw [hcap]
    rw [mrun_seq_step _ _ _ _ _ _ (by first | omega | (simp only [List.length_cons, List.length_nil]; omega))]
    rw [nameRE_run pkg _ _ _ _ (by first | omega | (simp only [List.length_cons, List.length_nil]; omega))]
    rw [mrun_seq_step _ _ _ _ _ _ (by first | omega | (simp only [List.length_cons, List.length_nil]; omega))]
    refine starCls_commit CC.ws [' '] _ _ _ _ _ (by decide) (by rfl) ?_
      (by first | omega | (simp only [List.length_cons, List.length_nil]; omega))
    rw [mrun_seq_step _ _ _ _ _ _ (by first | omega | (simp only [List.length_cons, List.length_nil]; omega))]
    rw [mrun_lit_hit _ _ _ _ _ (by first | omega | (simp only [List.length_cons, List.length_nil]; omega))]
    rw [mrun_seq_step _ _ _ _ _ _ (by first | omega | (simp only [List.length_cons, List.length_nil]; omega))]
    rw [mrun_lit_hit _ _ _ _ _ (by first | omega | (simp only [List.length_cons, List.length_nil]; omega))]
    rw [mrun_seq_step _ _ _ _ _ _ (by first | omega | (simp only [List.length_cons, List.length_nil]; omega))]
    refine starCls_commit CC.ws [' '] _ _ _ _ _ (by decide)
      (by simp [headNotIn, hx0ws]) ?_ (by first | omega | (simp only [List.length_cons, List.length_nil]; omega))
    rw [mrun_seq_step _ _ _ _ _ _ (by first | omega | (simp only [List.length_cons, List.length_nil]; omega))]
    refine plusCls_commit CC.digitDot (x0 :: X2) _ _ _ _ _ (by simp)
      (by simp [hX.1, hX.2]) (by rfl) ?_ (by first | omega | (simp only [List.length_cons, List.length_nil]; omega))
    rw [mrun_seq_step _ _ _ _ _ _ (by first | omega | (simp only [List.length_cons, List.length_nil]; omega))]
    refine starCls_commit CC.ws [] _ _ _ _ _ (by decide) (by rfl) ?_
      (by first | omega | (simp only [List.length_cons, List.length_nil]; omega))
    rw [mrun_seq_step _ _ _ _ _ _ (by first | omega | (simp only [List.length_cons, List.length_nil]; omega))]
    rw [mrun_alt_step _ _ _ _ _ _ (by first | omega | (simp only [List.length_cons, List.length_nil]; omega))]
    rw [mrun_lit_hit _ _ _ _ _ (by first | omega | (simp only [List.length_cons, List.length_nil]; omega))]
    rw [mrun_eps_step _ _ _ _ (by first | omega | (simp only [List.length_cons, List.length_nil]; omega))]

/-- `subAllF` does not depend on the fuel once it is at least one more
than the input length. -/
theorem subAllF_congr (r : RE) (tmpl : List Rp) :
    ∀ (n f1 f2 : Nat) (s : List Char), s.length ≤ n →
      s.length + 1 ≤ f1 → s.length + 1 ≤ f2 →
      subAllF f1 r tmpl s = subAllF f2 r tmpl s := by
  intro n
  induction n with
  | zero =>
    intro f1 f2 s hs h1 h2
    have hnil : s = [] := List.length_eq_zero.mp (by omega)
    subst hnil
    cases f1 with
    | zero => omega
    | succ g1 =>
      cases f2 with
      | zero => omega
      | succ g2 =>
        simp only [subAllF]
        cases hm : matchAt r [] with
        | none => rfl
        | some p => obtain ⟨restm, cpm⟩ := p; simp
  | succ n ih =>
    intro f1 f2 s hs h1 h2
    cases f1 with
    | zero => omega
    | succ g1 =>
      cases f2 with
      | zero => omega
      | succ g2 =>
        cases s with
        | nil =>
          simp only [subAllF]
          cases hm : matchAt r [] with
          | none => rfl
          | some p => obtain ⟨restm, cpm⟩ := p; simp
        | cons c t =>
          simp only [subAllF]
          cases hm : matchAt r (c :: t) with
          | none =>
            simp only [List.length_cons] at hs h1 h2
            rw [ih g1 g2 t (by omega) (by omega) (by omega)]
          | some p =>
            obtain ⟨restm, cpm⟩ := p
            simp only [List.length_cons] at hs h1 h2
            dsimp only
            by_cases hlt : restm.length < (c :: t).length
            · rw [if_pos hlt, if_pos hlt]
              simp only [List.length_cons] at hlt
              rw [ih g1 g2 restm (by omega) (by omega) (by omega)]
            · rw [if_neg hlt, if_neg hlt]
              rw [ih g1 g2 t (by omega) (by omega) (by omega)]

/-- Scan step when no match starts here: copy one character. -/
theorem subAll_none_step (r : RE) (tmpl : List Rp) (c : Char)
    (t : List Char) (h : matchAt r (c :: t) = none) :
    subAll r tmpl (c :: t) = c :: subAll r tmpl t := by
  simp only [subAll, List.length_cons, subAllF, h]

/-- Scan step at a non-empty match: emit the expanded replacement and
continue after the match. -/
theorem subAll_match_step (r : RE) (tmpl : List Rp) (s restm : List Char)
    (cpm : Caps) (h : matchAt r s = some (restm, cpm))
    (hlt : restm.length < s.length) :
    subAll r tmpl s = expandRepl tmpl cpm ++ subAll r tmpl restm := by
  cases s with
  | nil => simp at hlt
  | cons c t =>
    rw [show subAll r tmpl (c :: t) =
        (match matchAt r (c :: t) with
         | some (rest, cp) =>
           if rest.length < (c :: t).length then
             expandRepl tmpl cp ++ subAllF (c :: t).length r tmpl rest
           else
             expandRepl tmpl cp ++ (c :: subAllF (c :: t).length r tmpl t)
         | none => c :: subAllF (c :: t).length r tmpl t)
      from rfl]
    rw [h]
    dsimp only
    rw [if_pos hlt]
    rw [subAllF_congr r tmpl restm.length (c :: t).length (restm.length + 1)
      restm (le_refl _)
      (by simp only [List.length_cons] at hlt ⊢; omega) (le_refl _)]
    rfl

/-- Scanning the empty string with a non-matching pattern yields the
empty string. -/
theorem subAll_nil (r : RE) (tmpl : List Rp) (h : matchAt r [] = none) :
    subAll r tmpl [] = [] := by
  simp only [subAll, List.length_nil, subAllF, h]

/-- A region in which no suffix position can start a match is copied
through verbatim by the scan. -/
theorem subAll_copy (r : RE) (tmpl : List Rp) (pre s : List Char)
    (h : ∀ t, t <:+ pre → t ≠ [] → matchAt r (t ++ s) = none) :
    subAll r tmpl (pre ++ s) = pre ++ subAll r tmpl s := by
  induction pre with
  | nil => simp
  | cons c pre2 ih =>
    rw [List.cons_append,
      subAll_none_step r tmpl c (pre2 ++ s)
        (h (c :: pre2) (List.suffix_refl _) (by simp))]
    rw [ih (fun t ht hne => h t (ht.trans (List.suffix_cons c pre2)) hne),
      List.cons_append]

/-- If the matcher succeeds, the continuation was invoked on some suffix
of the input: matching only ever consumes characters. -/
theorem mrun_success_suffix (f : Nat) :
    ∀ (r : RE) (s : List Char) (cp : Caps)
      (k : List Char → Caps → Option (List Char × Caps))
      (x : List Char × Caps),
      mrun f r s cp k = some x →
      ∃ s2 cp2, s2 <:+ s ∧ k s2 cp2 = some x := by
  induction f with
  | zero => intro r s cp k x h; simp [mrun] at h
  | succ f ih =>
    intro r s cp k x h
    cases r with
    | eps => exact ⟨s, cp, List.suffix_refl s, h⟩
    | lit c =>
      cases s with
      | nil => simp [mrun] at h
      | cons c2 rest =>
        simp only [mrun] at h
        by_cases hc : c2 = c
        · rw [if_pos hc] at h
          exact ⟨rest, cp, List.suffix_cons c2 rest, h⟩
        · rw [if_neg hc] at h; exact absurd h (by simp)
    | cls cl =>
      cases s with
      | nil => simp [mrun] at h
      | cons c2 rest =>
        simp only [mrun] at h
        by_cases hc : cl.test c2 = true
        · rw [if_pos hc] at h
          exact ⟨rest, cp, List.suffix_cons c2 rest, h⟩
        · rw [if_neg hc] at h; exact absurd h (by simp)
    | seq a b =>
      simp only [mrun] at h
      obtain ⟨s2, cp2, hs2, h2⟩ := ih a s cp _ x h
      obtain ⟨s3, cp3, hs3, h3⟩ := ih b s2 cp2 k x h2
      exact ⟨s3, cp3, hs3.trans hs2, h3⟩
    | alt a b =>
      simp only [mrun] at h
      cases hm : mrun f a s cp k with
      | some r0 =>
        rw [hm] at h; dsimp only at h
        obtain ⟨s2, cp2, hs2, h2⟩ := ih a s cp k r0 hm
        exact ⟨s2, cp2, hs2, h2.trans h⟩
      | none =>
        rw [hm] at h; dsimp only at h
        exact ih b s cp k x h
    | star lz a =>
      cases lz with
      | true =>
        simp only [mrun] at h
        rw [if_pos trivial] at h
        cases hk : k s cp with
        | some r0 =>
          rw [hk] at h; dsimp only at h
          exact ⟨s, cp, List.suffix_refl s, hk.trans h⟩
        | none =>
          rw [hk] at h; dsimp only at h
          obtain ⟨s2, cp2, hs2, h2⟩ := ih a s cp _ x h
          have h2b : (if s2.length < s.length then
              mrun f (.star true a) s2 cp2 k else none) = some x := h2
          by_cases hlt : s2.length < s.length
          · rw [if_pos hlt] at h2b
            obtain ⟨s3, cp3, hs3, h3⟩ := ih (.star true a) s2 cp2 k x h2b
            exact ⟨s3, cp3, hs3.trans hs2, h3⟩
          · rw [if_neg hlt] at h2b; exact absurd h2b (by simp)
      | false =>
        simp only [mrun] at h
        rw [if_neg Bool.false_ne_true] at h
        cases hm : mrun f a s cp (fun s2 cp2 =>
            if s2.length < s.length then
              mrun f (.star false a) s2 cp2 k else none) with
        | some r0 =>
          rw [hm] at h; dsimp only at h
          obtain ⟨s2, cp2, hs2, h2⟩ := ih a s cp _ r0 hm
          have h2b : (if s2.length < s.length then
              mrun f (.star false a) s2 cp2 k else none) = some r0 := h2
          by_cases hlt : s2.length < s.length
          · rw [if_pos hlt] at h2b
            obtain ⟨s3, cp3, hs3, h3⟩ := ih (.star false a) s2 cp2 k r0 h2b
            exact ⟨s3, cp3, hs3.trans hs2, h3.trans h⟩
          · rw [if_neg hlt] at h2b; exact absurd h2b (by simp)
        | none =>
          rw [hm] at h; dsimp only at h
          exact ⟨s, cp, List.suffix_refl s, h⟩
    | grp n a =>
      simp only [mrun] at h
      obtain ⟨s2, cp2, hs2, h2⟩ := ih a s cp _ x h
      exact ⟨s2, (n, s.take (s.length - s2.length)) :: cp2, hs2, h2⟩
    | eol =>
      simp only [mrun] at h
      by_cases he : s = [] ∨ s = ['\n']
      · rw [if_pos he] at h
        exact ⟨s, cp, List.suffix_refl s, h⟩
      · rw [if_neg he] at h; exact absurd h (by simp)

/-- `reFound` (the embedding of `re.search`) answers true exactly when
the pattern matches at some suffix position of the string. -/
theorem reFound_iff (r : RE) (s : List Char) :
    reFound r s = true ↔
      ∃ s2, s2 <:+ s ∧ (matchAt r s2).isSome = true := by
  induction s with
  | nil =>
    simp only [reFound, List.suffix_nil]
    constructor
    · intro h; exact ⟨[], rfl, h⟩
    · rintro ⟨s2, rfl, h⟩; exact h
  | cons c t ih =>
    simp only [reFound, Bool.or_eq_true, ih]
    constructor
    · rintro (h | ⟨s2, hsuf, h⟩)
      · exact ⟨c :: t, List.suffix_refl _, h⟩
      · exact ⟨s2, hsuf.trans (List.suffix_cons c t), h⟩
    · rintro ⟨s2, hsuf, h⟩
      rcases List.suffix_cons_iff.mp hsuf with heq | hsuf2
      · subst heq; exact Or.inl h
      · exact Or.inr ⟨s2, hsuf2, h⟩

/-- A match of pattern 2 must start with a quote character. -/
theorem matchAt_pat2_quote (pkg s : List Char) (x : List Char × Caps)
    (h : matchAt (pat2 pkg) s = some x) :
    ∃ c ∈ s, CC.quoteCh.test c = true := by
  have hF := fuelFor_big s
  simp only [matchAt, pat2_eq] at h
  rw [mrun_seq_step _ _ _ _ _ _ (by omega)] at h
  rw [mrun_grp_step _ _ _ _ _ _ (by omega)] at h
  rw [mrun_cls_step _ _ _ _ _ (by omega)] at h
  cases s with
  | nil => simp at h
  | cons c t =>
    dsimp only at h
    by_cases hq : CC.quoteCh.test c = true
    · exact ⟨c, List.mem_cons_self c t, hq⟩
    · rw [if_neg hq] at h; exact absurd h (by simp)

/-- A match of pattern 3 must contain a double-quote character. -/
theorem matchAt_pat3_quote (pkg s : List Char) (x : List Char × Caps)
    (h : matchAt (pat3 pkg) s = some x) : '"' ∈ s := by
  have hF := fuelFor_big s
  simp only [matchAt, pat3_eq] at h
  rw [mrun_seq_step _ _ _ _ _ _ (by omega)] at h
  obtain ⟨s1, cp1, hs1, h1⟩ := mrun_success_suffix _ _ _ _ _ _ h
  have h1b : mrun (fuelFor s - 1)
      (.seq (reStar (.cls .ws))
        (.seq (.lit '=')
          (.seq (reStar (.cls .ws))
            (.seq (.lit '"')
              (.seq (.lit '>')
                (.seq (.lit '=')
                  (.seq (reStar (.cls .ws))
                    (.seq (rePlus (.cls .digitDot))
                      (.seq (.lit '"') .eps)))))))))
      s1 cp1 (fun s2 cp => some (s2, cp)) = some x := h1
  rw [mrun_seq_step _ _ _ _ _ _ (by omega)] at h1b
  obtain ⟨s2, cp2, hs2, h2⟩ := mrun_success_suffix _ _ _ _ _ _ h1b
  have h2b : mrun (fuelFor s - 1 - 1)
      (.seq (.lit '=')
        (.seq (reStar (.cls .ws))
          (.seq (.lit '"')
            (.seq (.lit '>')
              (.seq (.lit '=')
                (.seq (reStar (.cls .ws))
                  (.seq (rePlus (.cls .digitDot))
                    (.seq (.lit '"') .eps))))))))
      s2 cp2 (fun s2 cp => some (s2, cp)) = some x := h2
  rw [mrun_seq_step _ _ _ _ _ _ (by omega)] at h2b
  obtain ⟨s3, cp3, hs3, h3⟩ := mrun_success_suffix _ _ _ _ _ _ h2b
  have h3b : mrun (fuelFor s - 1 - 1 - 1)
      (.seq (reStar (.cls .ws))
        (.seq (.lit '"')
          (.seq (.lit '>')
            (.seq (.lit '=')
              (.seq (reStar (.cls .ws))
                (.seq (rePlus (.cls .digitDot))
                  (.seq (.lit '"') .eps)))))))
      s3 cp3 (fun s2 cp => some (s2, cp)) = some x := h3
  rw [mrun_seq_step _ _ _ _ _ _ (by omega)] at h3b
  obtain ⟨s4, cp4, hs4, h4⟩ := mrun_success_suffix _ _ _ _ _ _ h3b
  have h4b : mrun (fuelFor s - 1 - 1 - 1 - 1)
      (.seq (.lit '"')
        (.seq (.lit '>')
          (.seq (.lit '=')
            (.seq (reStar (.cls .ws))
              (.seq (rePlus (.cls .digitDot))
                (.seq (.lit '"') .eps))))))
      s4 cp4 (fun s2 cp => some (s2, cp)) = some x := h4
  rw [mrun_seq_step _ _ _ _ _ _ (by omega)] at h4b
  rw [mrun_lit_step _ _ _ _ _ (by omega)] at h4b
  cases s4 with
  | nil => exact absurd h4b (by simp)
  | cons c4 t4 =>
    dsimp only at h4b
    by_cases hc : c4 = '"'
    · subst hc
      exact hs1.subset (hs2.subset (hs3.subset
        (hs4.subset (List.mem_cons_self _ t4))))
    · rw [if_neg hc] at h4b; exact absurd h4b (by simp)

/-- Digits and dots are not quote characters. -/
theorem digitDot_not_quote (c : Char) (h : CC.digitDot.test c = true) :
    CC.quoteCh.test c = false := by
  by_contra hw
  rw [Bool.not_eq_false] at hw
  simp only [CC.test, Bool.or_eq_true, decide_eq_true_eq] at hw
  rcases hw with rfl | rfl <;> exact absurd h (by decide)

/-- Pattern 2 never fires on quote-free text. -/
theorem reFound_pat2_false (pkg s : List Char)
    (h : ∀ c ∈ s, CC.quoteCh.test c = false) :
    reFound (pat2 pkg) s = false := by
  by_contra hb
  rw [Bool.not_eq_false] at hb
  obtain ⟨s2, hsuf, hm⟩ := (reFound_iff _ _).mp hb
  obtain ⟨x, hx⟩ := Option.isSome_iff_exists.mp hm
  obtain ⟨c, hc, hq⟩ := matchAt_pat2_quote pkg s2 x hx
  rw [h c (hsuf.subset hc)] at hq
  exact absurd hq (by simp)

/-- Pattern 3 never fires on quote-free text. -/
theorem reFound_pat3_false (pkg s : List Char)
    (h : ∀ c ∈ s, CC.quoteCh.test c = false) :
    reFound (pat3 pkg) s = false := by
  by_contra hb
  rw [Bool.not_eq_false] at hb
  obtain ⟨s2, hsuf, hm⟩ := (reFound_iff _ _).mp hb
  obtain ⟨x, hx⟩ := Option.isSome_iff_exists.mp hm
  have hmem := matchAt_pat3_quote pkg s2 x hx
  have := h '"' (hsuf.subset hmem)
  exact absurd this (by decide)

/-- The manifest line used in the compound-constraint statement, in the
nested shape consumed by the matcher lemmas. -/
theorem c10_content_shape (pkg X Y : List Char) :
    "dependencies:\n    ".toList ++ pkg ++ " >= ".toList ++ X ++ [','] ++
        '<' :: Y ++ ['\n'] =
      "dependencies:".toList ++
        (('\n' :: ' ' :: ' ' :: ' ' :: ' ' :: []) ++
          (pkg ++ ' ' :: '>' :: '=' :: ' ' ::
            (X ++ ',' :: ('<' :: Y ++ ['\n'])))) := by
  simp only [List.append_assoc, List.cons_append, List.nil_append,
    List.singleton_append]
  rfl

/-- Effect of the pattern-1 substitution on a compound-constraint line:
the lower bound and its comma are consumed, the replacement ends in a
newline, and the upper-bound text is copied through unchanged. -/
theorem c10_sub_eq (pkg X Y V : List Char)
    (hpkg_ne : pkg ≠ [])
    (hpkg_ws : pkg.all (fun c => ! CC.ws.test c) = true)
    (hX_ne : X ≠ []) (hX : X.all CC.digitDot.test = true)
    (hY_ws : Y.all (fun c => ! CC.ws.test c) = true) :
    subAll (pat1 pkg) (rep1 pkg V)
        ("dependencies:\n    ".toList ++ pkg ++ " >= ".toList ++ X ++
          [','] ++ '<' :: Y ++ ['\n']) =
      "dependencies:\n    ".toList ++ pkg ++ " == ".toList ++ V ++
        ['\n'] ++ '<' :: Y ++ ['\n'] := by
  rw [c10_content_shape]
  have h1 : ∀ t, t <:+ ("dependencies:".toList : List Char) → t ≠ [] →
      matchAt (pat1 pkg)
        (t ++ (('\n' :: ' ' :: ' ' :: ' ' :: ' ' :: []) ++
          (pkg ++ ' ' :: '>' :: '=' :: ' ' ::
            (X ++ ',' :: ('<' :: Y ++ ['\n']))))) = none := by
    intro t ht hne
    cases t with
    | nil => exact absurd rfl hne
    | cons c t2 =>
      apply matchAt_pat1_head
      have hcm : c ∈ ("dependencies:".toList : List Char) :=
        ht.subset (List.mem_cons_self c t2)
      have hws : CC.ws.test c = false := by
        have hall : ∀ c2 ∈ ("dependencies:".toList : List Char),
            CC.ws.test c2 = false := by decide
        exact hall c hcm
      show (! CC.ws.test c) = true
      rw [hws]
      rfl
  rw [subAll_copy _ _ _ _ h1]
  have hhead : headNotIn CC.ws
      (pkg ++ ' ' :: '>' :: '=' :: ' ' ::
        (X ++ ',' :: ('<' :: Y ++ ['\n']))) = true := by
    cases pkg with
    | nil => exact absurd rfl hpkg_ne
    | cons p0 pkg2 =>
      simp only [List.all_cons, Bool.and_eq_true] at hpkg_ws
      exact hpkg_ws.1
  have hmatch : matchAt (pat1 pkg)
      (('\n' :: ' ' :: ' ' :: ' ' :: ' ' :: []) ++
        (pkg ++ ' ' :: '>' :: '=' :: ' ' ::
          (X ++ ',' :: ('<' :: Y ++ ['\n'])))) =
      some (('<' :: Y ++ ['\n']),
        [(1, ('\n' :: ' ' :: ' ' :: ' ' :: ' ' :: []))]) :=
    matchAt_pat1_hit pkg X _ _ (by decide) (by decide) hhead hX_ne hX
  rw [subAll_match_step _ _ _ _ _ hmatch
    (by simp [List.length_append]; omega)]
  have hexp : expandRepl (rep1 pkg V)
      [(1, ('\n' :: ' ' :: ' ' :: ' ' :: ' ' :: []))] =
      ('\n' :: ' ' :: ' ' :: ' ' :: ' ' :: []) ++
        (pkg ++ (" == ".toList ++ (V ++ ['\n']))) := rfl
  rw [hexp]
  have h2 : ∀ t, t <:+ ('<' :: Y) → t ≠ [] →
      matchAt (pat1 pkg) (t ++ ['\n']) = none := by
    intro t ht hne
    cases t with
    | nil => exact absurd rfl hne
    | cons c t2 =>
      apply matchAt_pat1_head
      have hcm : c ∈ '<' :: Y := ht.subset (List.mem_cons_self c t2)
      have hws : CC.ws.test c = false := by
        rcases List.mem_cons.mp hcm with rfl | hcY
        · decide
        · have hb := (List.all_eq_true.mp hY_ws) c hcY
          simpa using hb
      show (! CC.ws.test c) = true
      rw [hws]
      rfl
  rw [subAll_copy _ _ _ _ h2]
  rw [subAll_none_step _ _ _ _ (matchAt_pat1_single_newline pkg hpkg_ne)]
  rw [subAll_nil _ _ (matchAt_pat1_head pkg [] rfl)]
  simp only [List.append_assoc, List.cons_append, List.nil_append,
    List.singleton_append]
  rfl

/-- The rewritten line contains no quote character when the symbolic
parts are quote-free, so patterns 2 and 3 cannot fire on it. -/
theorem c10_result_quote_free (pkg Y V : List Char)
    (hpkg_q : pkg.all (fun c => ! CC.quoteCh.test c) = true)
    (hY_q : Y.all (fun c => ! CC.quoteCh.test c) = true)
    (hV_q : V.all (fun c => ! CC.quoteCh.test c) = true) :
    ∀ c ∈ ("dependencies:\n    ".toList ++ pkg ++ " == ".toList ++ V ++
      ['\n'] ++ '<' :: Y ++ ['\n']), CC.quoteCh.test c = false := by
  intro c hcm
  have hdep : ∀ c2 ∈ ("dependencies:\n    ".toList : List Char),
      CC.quoteCh.test c2 = false := by decide
  have heqs : ∀ c2 ∈ (" == ".toList : List Char),
      CC.quoteCh.test c2 = false := by decide
  simp only [List.append_assoc, List.cons_append, List.singleton_append,
    List.nil_append, List.mem_append, List.mem_cons,
    List.mem_singleton] at hcm
  rcases hcm with h | h | h | h | h | h | h | h
  · exact hdep c h
  · simpa using (List.all_eq_true.mp hpkg_q) c h
  · exact heqs c h
  · simpa using (List.all_eq_true.mp hV_q) c h
  · subst h; decide
  · subst h; decide
  · simpa using (List.all_eq_true.mp hY_q) c h
  · rcases h with rfl | h
    · decide
    · simp at h

/-- Pattern 1 does fire on the compound-constraint line. -/
theorem c10_found1 (pkg X Y : List Char)
    (hpkg_ne : pkg ≠ [])
    (hpkg_ws : pkg.all (fun c => ! CC.ws.test c) = true)
    (hX_ne : X ≠ []) (hX : X.all CC.digitDot.test = true) :
    reFound (pat1 pkg)
      ("dependencies:\n    ".toList ++ pkg ++ " >= ".toList ++ X ++
        [','] ++ '<' :: Y ++ ['\n']) = true := by
  rw [c10_content_shape]
  apply (reFound_iff _ _).mpr
  have hhead : headNotIn CC.ws
      (pkg ++ ' ' :: '>' :: '=' :: ' ' ::
        (X ++ ',' :: ('<' :: Y ++ ['\n']))) = true := by
    cases pkg with
    | nil => exact absurd rfl hpkg_ne
    | cons p0 pkg2 =>
      simp only [List.all_cons, Bool.and_eq_true] at hpkg_ws
      exact hpkg_ws.1
  refine ⟨('\n' :: ' ' :: ' ' :: ' ' :: ' ' :: []) ++
    (pkg ++ ' ' :: '>' :: '=' :: ' ' ::
      (X ++ ',' :: ('<' :: Y ++ ['\n']))),
    ⟨"dependencies:".toList, rfl⟩, ?_⟩
  rw [matchAt_pat1_hit pkg X _ _ (by decide) (by decide) hhead hX_ne hX]
  rfl

/-- The rewriter's three-pattern cascade on a single watched package:
pattern 1 fires, patterns 2 and 3 do not, so the result is the pattern-1
substitution and exactly one modification is recorded. -/
theorem c10_fold (content res1 pkg V : List Char)
    (h1 : reFound (pat1 pkg) content = true)
    (hval : subAll (pat1 pkg) (rep1 pkg V) content = res1)
    (h2 : reFound (pat2 pkg) res1 = false)
    (h3 : reFound (pat3 pkg) res1 = false) :
    pin_dependencies_in_pyproject content [(pkg, V)] =
      { newContent := res1, backupContent := content,
        modifications := [(pkg, V)] } := by
  simp [pin_dependencies_in_pyproject, patternsFor, h1, hval, h2, h3]

/-- C10: for every unquoted dependency line carrying a compound
constraint `name >= X,<Y` in which `name` is a watched package with
discovered version `V` (name non-empty, whitespace- and quote-free; `X`
a non-empty run of digits and dots; `Y` and `V` whitespace- resp.
quote-free), the rewrite consumes only the lower bound `>= X` and the
comma that follows it, substitutes `name == V` ending in a newline, and
copies the upper-bound text `<Y` through unchanged, so it survives at
the start of a new line; exactly one modification is recorded and the
backup keeps the original text. -/
theorem c10_compound_constraint_preserves_upper_bound
    (pkg X Y V : List Char)
    (hpkg_ne : pkg ≠ [])
    (hpkg_ws : pkg.all (fun c => ! CC.ws.test c) = true)
    (hpkg_q : pkg.all (fun c => ! CC.quoteCh.test c) = true)
    (hX_ne : X ≠ []) (hX : X.all CC.digitDot.test = true)
    (hY_ws : Y.all (fun c => ! CC.ws.test c) = true)
    (hY_q : Y.all (fun c => ! CC.quoteCh.test c) = true)
    (hV_q : V.all (fun c => ! CC.quoteCh.test c) = true) :
    pin_dependencies_in_pyproject
        ("dependencies:\n    ".toList ++ pkg ++ " >= ".toList ++ X ++
          [','] ++ '<' :: Y ++ ['\n'])
        [(pkg, V)] =
      { newContent := "dependencies:\n    ".toList ++ pkg ++
          " == ".toList ++ V ++ ['\n'] ++ '<' :: Y ++ ['\n'],
        backupContent := "dependencies:\n    ".toList ++ pkg ++
          " >= ".toList ++ X ++ [','] ++ '<' :: Y ++ ['\n'],
        modifications := [(pkg, V)] } := by
  have hqf := c10_result_quote_free pkg Y V hpkg_q hY_q hV_q
  exact c10_fold _ _ pkg V
    (c10_found1 pkg X Y hpkg_ne hpkg_ws hX_ne hX)
    (c10_sub_eq pkg X Y V hpkg_ne hpkg_ws hX_ne hX hY_ws)
    (reFound_pat2_false pkg _ hqf)
    (reFound_pat3_false pkg _ hqf)

/-- Closed witness for C10 at the torch instance: the line
`    torch >= 2.6.0,<2.10.0` becomes `    torch == 2.9.0a0+git1c57644`
followed by `<2.10.0` on its own line. -/
theorem c10_compound_constraint_witness :
    pin_dependencies_in_pyproject
        ("dependencies:\n    ".toList ++ "torch".toList ++
          " >= ".toList ++ "2.6.0".toList ++ [','] ++
          '<' :: "2.10.0".toList ++ ['\n'])
        [("torch".toList, "2.9.0a0+git1c57644".toList)] =
      { newContent := "dependencies:\n    ".toList ++ "torch".toList ++
          " == ".toList ++ "2.9.0a0+git1c57644".toList ++ ['\n'] ++
          '<' :: "2.10.0".toList ++ ['\n'],
        backupContent := "dependencies:\n    ".toList ++
          "torch".toList ++ " >= ".toList ++ "2.6.0".toList ++ [','] ++
          '<' :: "2.10.0".toList ++ ['\n'],
        modifications :=
          [("torch".toList, "2.9.0a0+git1c57644".toList)] } :=
  c10_compound_constraint_preserves_upper_bound
    "torch".toList "2.6.0".toList "2.10.0".toList
    "2.9.0a0+git1c57644".toList
    (by decide) (by decide) (by decide) (by decide) (by decide)
    (by decide) (by decide) (by decide)
